import Mathlib

/-!
Verification of the `unitree` persistent balanced tree with cursor-based mutation.

The development shallowly embeds the Rust sources:

* `src/traits.rs` and `src/info_ext.rs` — the `Info`, `Leaf` and the two duplicated
  `PathInfo` contracts together with their built-in instances for `()` and `usize`;
* `src/cursor_mut.rs` — the mutable cursor `CursorMutT`: descent, ascent, insertion
  with overflow splitting, and bulk construction via `FromIterator`.

The immutable `Node` representation, the bounded child array `NVec`, and the shape
constants `MAX_CHILDREN`/`MIN_CHILDREN` are external collaborators of the crate (they
are not under `src/`); they are modelled from the spec where indicated.  Rust's
reference-counted copy-on-write pointers (`RC`, `Arc::make_mut`) are modelled by plain
values: `make_mut` is the identity in a value semantics.  `usize` arithmetic is
modelled on `Nat` with explicit wrapping modulo `2 ^ 64`.
-/

namespace Unitree

/-- Embeds `trait Info` from `src/traits.rs`: metadata gathered hierarchically over
the tree.  (`Copy` is implicit in the value semantics.) -/
class Info (α : Type) where
  gather : α → α → α

/-- Embeds `trait Leaf` from `src/traits.rs`: the value stored in a leaf node,
with its associated `Info` type. -/
class Leaf (L : Type) (α : outParam Type) [Info α] where
  compute_info : L → α

/-- Embeds `trait PathInfo` from `src/info_ext.rs` (imported by the cursor as
`InfoExt`): cumulative path info with `extend`, its inverse `extend_inv`, and
`identity`. -/
class PathInfo (I : Type) (α : Type) [Info α] where
  extend : I → α → I
  extend_inv : I → α → I
  identity : I

/-! ## The two duplicated `PathInfo` contracts (claims C8, C9)

`src/traits.rs` lines 19-28 and `src/info_ext.rs` lines 3-17 both declare a trait
named `PathInfo`.  Each copy is embedded below as a record of the operations the
trait declares, plus the operations of its two built-in instances as plain
functions, so the copies can be compared. -/

/-- The operations imposed by `trait PathInfo` from `src/traits.rs` (lines 19-28):
`extend` and `extend_inv` only. -/
structure TraitsPathInfoSig (I R : Type) : Type where
  extend : I → R → I
  extend_inv : I → R → I

/-- The operations imposed by `trait PathInfo` from `src/info_ext.rs` (lines 3-17):
`extend`, `extend_inv`, and additionally `identity`. -/
structure InfoExtPathInfoSig (I R : Type) : Type where
  extend : I → R → I
  extend_inv : I → R → I
  identity : I

/-- The `usize` modulus: `usize` arithmetic is modelled on `Nat` wrapping mod `2^64`. -/
def usizeMod : Nat := 2 ^ 64

/-- Embeds `impl PathInfo for usize` `extend` from `src/traits.rs` line 88:
`self + other`, with `usize` overflow wrapping. -/
def traits_usize_extend (a b : Nat) : Nat := (a + b) % usizeMod

/-- Embeds `impl PathInfo for usize` `extend_inv` from `src/traits.rs` line 91:
`self - other`, with `usize` underflow wrapping. -/
def traits_usize_extend_inv (a b : Nat) : Nat := (a + (usizeMod - b % usizeMod)) % usizeMod

/-- Embeds `impl<T> PathInfo<T> for ()` `extend` from `src/traits.rs` line 80. -/
def traits_unit_extend (_ : Unit) (_ : R) : Unit := ()

/-- Embeds `impl<T> PathInfo<T> for ()` `extend_inv` from `src/traits.rs` line 83. -/
def traits_unit_extend_inv (_ : Unit) (_ : R) : Unit := ()

/-- Embeds `impl PathInfo for usize` `extend` from `src/info_ext.rs` line 32:
`self + other`, with `usize` overflow wrapping. -/
def info_ext_usize_extend (a b : Nat) : Nat := (a + b) % usizeMod

/-- Embeds `impl PathInfo for usize` `extend_inv` from `src/info_ext.rs` line 35:
`self - other`, with `usize` underflow wrapping. -/
def info_ext_usize_extend_inv (a b : Nat) : Nat := (a + (usizeMod - b % usizeMod)) % usizeMod

/-- Embeds `impl PathInfo for usize` `identity` from `src/info_ext.rs` line 38: `0`. -/
def info_ext_usize_identity : Nat := 0

/-- Embeds `impl<T> PathInfo<T> for ()` `extend` from `src/info_ext.rs` line 21. -/
def info_ext_unit_extend (_ : Unit) (_ : R) : Unit := ()

/-- Embeds `impl<T> PathInfo<T> for ()` `extend_inv` from `src/info_ext.rs` line 24. -/
def info_ext_unit_extend_inv (_ : Unit) (_ : R) : Unit := ()

/-- Embeds `impl<T> PathInfo<T> for ()` `identity` from `src/info_ext.rs` line 27. -/
def info_ext_unit_identity : Unit := ()

/-! ## The node tree

The `Node` type itself lives outside `src/`; the spec (sections 1, 3 and 6) fixes its
interface: a node is a leaf wrapping one stored value or an internal node holding an
ordered bounded array of children; it exposes its height, its aggregate info (the
leaf's own info or the gather-fold of the children's infos), construction
`from_leaf` / `from_nodes`, concatenation of two equal-height trees, and a
directional weighted-traversal/search primitive. -/

/-- Modelled from the spec (section 3, `Node`, missing from `src/`): a persistent
tree value, either a leaf wrapping exactly one stored value or an internal node
holding an ordered array of child nodes. -/
inductive Node (L : Type) : Type where
  | leaf : L → Node L
  | internal : List (Node L) → Node L
deriving Repr

/-- Modelled from the spec (section 3, missing from `src/`): `NVec::insert` of the
bounded child array — insert an element at an index, shifting later elements up.
An out-of-range index (a usage error that the source's array container rejects)
is clamped to appending at the end, keeping the model total. -/
def nvecInsert {α : Type} : Nat → α → List α → List α
  | 0, a, l => a :: l
  | _ + 1, a, [] => [a]
  | n + 1, a, b :: l => b :: nvecInsert n a l

mutual

/-- Modelled from the spec (section 3, missing from `src/`): the in-order leaf
sequence of a node. -/
def Node.leaves {L : Type} : Node L → List L
  | .leaf l => [l]
  | .internal cs => leavesList cs

/-- In-order leaf sequence of a list of sibling nodes. -/
def leavesList {L : Type} : List (Node L) → List L
  | [] => []
  | c :: cs => c.leaves ++ leavesList cs

end

mutual

/-- Modelled from the spec (sections 3 and the glossary, missing from `src/`):
`Node::height` — distance in levels from a node to its leaf descendants.  A leaf has
height `0`; an internal node is one level above its children (who, for well-formed
trees, all share one height; the model folds with `max` so it is total). -/
def Node.height {L : Type} : Node L → Nat
  | .leaf _ => 0
  | .internal cs => heightList cs + 1

/-- Height of the tallest node in a list of siblings (`0` for the empty list). -/
def heightList {L : Type} : List (Node L) → Nat
  | [] => 0
  | c :: cs => max c.height (heightList cs)

end

variable {L α I : Type}

mutual

/-- Modelled from the spec (section 3, missing from `src/`): the cached aggregate
`Info` of a node — the leaf's own info, or the gather-fold of the children's infos.
In the model the aggregate is recomputed on demand, so a node built by `from_nodes`
always carries the gather of its children's infos. -/
def Node.info [Info α] [Inhabited α] [Leaf L α] : Node L → α
  | .leaf l => Leaf.compute_info l
  | .internal cs => infoList cs

/-- Gather-fold of the infos of a list of siblings (`default` for the empty list,
which `from_nodes` is never given). -/
def infoList [Info α] [Inhabited α] [Leaf L α] : List (Node L) → α
  | [] => default
  | [c] => c.info
  | c :: cs => Info.gather c.info (infoList cs)

end

/-- Embeds `Node::from_leaf` (external constructor named at
`src/cursor_mut.rs` line 152): wrap a stored value as a leaf node. -/
def Node.from_leaf (l : L) : Node L := .leaf l

/-- Embeds `Node::from_nodes` (external constructor named at
`src/cursor_mut.rs` line 78): build an internal node from a child array, computing
its cumulative info (in this model the info is derived, see `Node.info`). -/
def Node.from_nodes (cs : List (Node L)) : Node L := .internal cs

/-- Modelled from the spec (sections 3 and 4.3, missing from `src/`):
`Node::concat` — concatenate two trees of equal height into a two-child node one
level higher. -/
def Node.concat (a b : Node L) : Node L := .internal [a, b]

section Traverse

variable [Info α] [Inhabited α] [Leaf L α] [PathInfo I α]

/-- Path info extended by the infos of a whole list of children, left to right. -/
def extendAll (ext : I) (cs : List (Node L)) : I :=
  cs.foldl (fun e c => PathInfo.extend e c.info) ext

/-- Forward walk of `gather_traverse`: `n` is the total child count, `i` the forward
index of the child at the head, `ext` the path info accumulated before that child,
`acc` the gathered info of the already-passed children (`none` before the first).
The predicate receives the running path info, the gathered info up to and including
the candidate child, and the candidate's forward and reverse indices; on the first
`true` the candidate's forward index and the path info before it are returned. -/
def traverseGo (f : I → α → Nat → Nat → Bool) (n : Nat) :
    List (Node L) → Nat → I → Option α → Option (Nat × I)
  | [], _, _, _ => none
  | c :: cs, i, ext, acc =>
    let g := match acc with
      | none => c.info
      | some a => Info.gather a c.info
    if f ext g i (n - 1 - i) then some (i, ext)
    else traverseGo f n cs (i + 1) (PathInfo.extend ext c.info) (some g)

/-- Modelled from the spec (sections 2, 3 and 6, missing from `src/`):
`Node::gather_traverse` — walk the children left to right, accumulating path info
and gathered info, until the caller predicate selects one; `none` on a leaf or when
no child is selected. -/
def Node.gather_traverse (node : Node L) (ext : I) (f : I → α → Nat → Nat → Bool) :
    Option (Nat × I) :=
  match node with
  | .leaf _ => none
  | .internal cs => traverseGo f cs.length cs 0 ext none

/-- Reverse walk of `gather_traverse_rev`: the list is the children reversed, `j` is
the reverse index of the child at the head, `ext` the path info accumulated past
(and including) that child; stepping onto a child undoes its contribution with
`extend_inv`. -/
def traverseRevGo (f : I → α → Nat → Nat → Bool) (n : Nat) :
    List (Node L) → Nat → I → Option α → Option (Nat × I)
  | [], _, _, _ => none
  | c :: cs, j, ext, acc =>
    let ext2 := PathInfo.extend_inv ext c.info
    let g := match acc with
      | none => c.info
      | some a => Info.gather a c.info
    if f ext2 g (n - 1 - j) j then some (n - 1 - j, ext2)
    else traverseRevGo f n cs (j + 1) ext2 (some g)

/-- Modelled from the spec (sections 2, 3 and 6, missing from `src/`):
`Node::gather_traverse_rev` — as `gather_traverse` but walking the children right to
left, subtracting each child's contribution back out of the path info via
`extend_inv`. -/
def Node.gather_traverse_rev (node : Node L) (ext : I) (f : I → α → Nat → Nat → Bool) :
    Option (Nat × I) :=
  match node with
  | .leaf _ => none
  | .internal cs => traverseRevGo f cs.length cs.reverse 0 (extendAll ext cs) none

end Traverse

/-! ## The mutable cursor (`src/cursor_mut.rs`) -/

/-- Embeds `struct CursorMutStep` from `src/cursor_mut.rs` lines 24-28: one saved
level of context — the owning array of sibling nodes with the current node already
absent, the index at which it was removed, and the path info accumulated down to
(but excluding) this level. -/
structure CursorMutStep (L I : Type) : Type where
  nodes : List (Node L)
  idx : Nat
  extra : I
deriving Repr

/-- Embeds `struct CursorMutT` from `src/cursor_mut.rs` lines 19-22: the currently
detached node (if any) plus the stack of ascent steps (head = innermost level).
The source keeps the steps in a fixed-capacity `CVec` of 8 entries; per the spec's
design note (section 9) the model uses a dynamically-growable stack instead. -/
structure CursorMutT (L I : Type) : Type where
  cur_node : Option (Node L)
  steps : List (CursorMutStep L I)
deriving Repr

section Cursor

variable [Info α] [Inhabited α] [Leaf L α] [PathInfo I α]

/-- Embeds `CursorMutT::new` (`src/cursor_mut.rs` lines 38-43). -/
def CursorMutT.new : CursorMutT L I :=
  { cur_node := none, steps := [] }

/-- Embeds `CursorMutT::from_node` (`src/cursor_mut.rs` lines 45-50). -/
def CursorMutT.from_node (node : Node L) : CursorMutT L I :=
  { cur_node := some node, steps := [] }

/-- Embeds `CursorMutT::current` (`src/cursor_mut.rs` lines 57-59); the source
returns a mutable borrow of the held node and leaves the cursor unchanged, so the
model is a pure projection. -/
def CursorMutT.current (c : CursorMutT L I) : Option (Node L) :=
  c.cur_node

/-- Embeds `CursorMutT::extra` (`src/cursor_mut.rs` lines 62-67): the path info of
the innermost step, or the identity when there are no steps.  (The info type `α` is
fixed by the bound `I: InfoExt<L::Info>` in the source; here it is passed
explicitly so the `identity` of the right `PathInfo` instance is selected.) -/
def CursorMutT.extra (α : Type) [Info α] [PathInfo I α] (c : CursorMutT L I) : I :=
  match c.steps with
  | cstep :: _ => cstep.extra
  | [] => @PathInfo.identity I α _ _

/-- Embeds `CursorMutT::ascend` (`src/cursor_mut.rs` lines 73-89): reinsert the held
node into the parent's sibling array at the recorded index, rebuild the parent with
`Node::from_nodes` (recomputing its info) and hold it, discarding the step.  With no
held node, or with no steps (held node is the root), the state is unchanged and
`none` is returned.  The source returns `Option<&mut Node>`; the model returns the
new state paired with the returned node. -/
def CursorMutT.ascend (c : CursorMutT L I) : CursorMutT L I × Option (Node L) :=
  match c.cur_node with
  | some cur =>
    match c.steps with
    | cstep :: rest =>
      let parent := Node.from_nodes (nvecInsert cstep.idx cur cstep.nodes)
      ({ cur_node := some parent, steps := rest }, some parent)
    | [] => (c, none)
  | none => (c, none)

theorem ascend_steps_lt (c c2 : CursorMutT L I) (n : Node L)
    (h : c.ascend = (c2, some n)) : c2.steps.length < c.steps.length := by
  unfold CursorMutT.ascend at h
  match hc : c.cur_node, hs : c.steps with
  | some cur, cstep :: rest => simp [hc, hs] at h; simp [hs, ← h.1]
  | some cur, [] => simp [hc, hs] at h
  | none, _ => simp [hc] at h

/-- The state reached by the `while let Some(_) = self.ascend() {}` loop of
`CursorMutT::reset`, unrolled along the ascent steps: each successful `ascend`
reinserts the held node and rebuilds the parent.  (`reset_fuel_eq_reset` below
proves this agrees with iterating `ascend` itself.) -/
def resetGo : List (CursorMutStep L I) → Node L → CursorMutT L I
  | [], cur => { cur_node := some cur, steps := [] }
  | cstep :: rest, cur =>
    resetGo rest (Node.from_nodes (nvecInsert cstep.idx cur cstep.nodes))

/-- Embeds `CursorMutT::reset` (`src/cursor_mut.rs` lines 69-71): ascend repeatedly
until `ascend` reports no further ascent. -/
def CursorMutT.reset (c : CursorMutT L I) : CursorMutT L I :=
  match c.cur_node with
  | none => c
  | some cur => resetGo c.steps cur

/-- Embeds `CursorMutT::into_root` (`src/cursor_mut.rs` lines 52-55): fully ascend,
then extract the root (consuming the cursor). -/
def CursorMutT.into_root (c : CursorMutT L I) : Option (Node L) :=
  c.reset.cur_node

/-- Embeds `CursorMutT::descend_raw` (`src/cursor_mut.rs` lines 241-247): remove the
child at `idx` from the (made uniquely owned) array, hold it, and push a step
recording the remaining siblings, the index and the path info.  The source unwraps
the removal; the unreachable out-of-range case leaves the cursor unchanged. -/
def CursorMutT.descend_raw (c : CursorMutT L I) (nodes : List (Node L)) (idx : Nat)
    (extra : I) : CursorMutT L I × Option (Node L) :=
  match nodes[idx]? with
  | some cur =>
    ({ cur_node := some cur,
       steps := { nodes := nodes.eraseIdx idx, idx := idx, extra := extra } :: c.steps },
     some cur)
  | none => (c, none)

/-- Embeds `CursorMutT::descend_by_ext` (`src/cursor_mut.rs` lines 115-139): run the
directional traversal on the held node with the current path info; on a match,
descend into the selected child via `descend_raw`; otherwise (no match, leaf, or
empty cursor) leave the cursor unchanged and return `none`. -/
def CursorMutT.descend_by_ext (c : CursorMutT L I) (f : I → α → Nat → Nat → Bool)
    (reversed : Bool) : CursorMutT L I × Option (Node L) :=
  match c.cur_node with
  | some cur =>
    match (if reversed then cur.gather_traverse_rev (c.extra α) f
           else cur.gather_traverse (c.extra α) f), cur with
    | some (index, extra), .internal cs =>
      CursorMutT.descend_raw { c with cur_node := none } cs index extra
    | _, _ => (c, none)
  | none => (c, none)

/-- Embeds `CursorMutT::descend_by` (`src/cursor_mut.rs` lines 108-112). -/
def CursorMutT.descend_by (c : CursorMutT L I) (f : α → Nat → Nat → Bool)
    (reversed : Bool) : CursorMutT L I × Option (Node L) :=
  c.descend_by_ext (fun _ a i j => f a i j) reversed

/-- Embeds `CursorMutT::descend` (`src/cursor_mut.rs` lines 91-93): select the child
whose forward index equals `idx`. -/
def CursorMutT.descend (c : CursorMutT L I) (idx : Nat) : CursorMutT L I × Option (Node L) :=
  c.descend_by_ext (fun _ _ i _ => i == idx) false

/-- Embeds `CursorMutT::descend_last` (`src/cursor_mut.rs` lines 95-97): select the
child whose reverse index equals `idx`. -/
def CursorMutT.descend_last (c : CursorMutT L I) (idx : Nat) : CursorMutT L I × Option (Node L) :=
  c.descend_by_ext (fun _ _ _ i => i == idx) true

/-- Embeds `CursorMutT::remove` (`src/cursor_mut.rs` lines 167-174): the body is
`unimplemented!()`, so every call panics, whatever the held node is; the model
returns no node. -/
def CursorMutT.remove (_c : CursorMutT L I) (_idx : Nat) : Option (Node L) :=
  none

end Cursor

theorem getq_concat {β : Type} (xs : List β) (a : β) : (xs ++ [a])[xs.length]? = some a := by
  induction xs with
  | nil => rfl
  | cons x xs ih => simpa using ih

theorem eraseIdx_concat {β : Type} (xs : List β) (a : β) :
    (xs ++ [a]).eraseIdx xs.length = xs := by
  induction xs with
  | nil => rfl
  | cons x xs ih => simpa using ih

theorem nvecInsert_length_self {β : Type} (xs : List β) (a : β) :
    nvecInsert xs.length a xs = xs ++ [a] := by
  induction xs with
  | nil => rfl
  | cons x xs ih => simpa [nvecInsert] using ih

section DescendSpec

variable [Info α] [Inhabited α] [Leaf L α] [PathInfo I α]

/-- Behaviour of `descend_last(0)` on an internal node: selects the last child. -/
theorem descend_last_zero_spec (c : CursorMutT L I) (ds : List (Node L)) (d : Node L)
    (hc : c.cur_node = some (Node.internal (ds ++ [d]))) :
    c.descend_last 0 =
      ({ cur_node := some d,
         steps := { nodes := ds, idx := ds.length,
                    extra := PathInfo.extend_inv
                      (extendAll (c.extra α) (ds ++ [d])) (d.info : α) } :: c.steps },
       some d) := by
  unfold CursorMutT.descend_last CursorMutT.descend_by_ext
  rw [hc]
  simp only [Node.gather_traverse_rev, List.reverse_append, List.reverse_singleton,
    List.singleton_append, traverseRevGo]
  simp [CursorMutT.descend_raw, getq_concat, eraseIdx_concat, List.length_append]

/-- Behaviour of `descend(0)` on an internal node: selects the first child. -/
theorem descend_zero_spec (c : CursorMutT L I) (e : Node L) (es : List (Node L))
    (hc : c.cur_node = some (Node.internal (e :: es))) :
    c.descend 0 =
      ({ cur_node := some e,
         steps := { nodes := es, idx := 0, extra := c.extra α } :: c.steps },
       some e) := by
  unfold CursorMutT.descend CursorMutT.descend_by_ext
  rw [hc]
  simp only [Node.gather_traverse, traverseGo]
  simp [CursorMutT.descend_raw, List.eraseIdx]

end DescendSpec

mutual

/-- Structural size of a node, a computable termination measure for the descent
loops. -/
def Node.size {L : Type} : Node L → Nat
  | .leaf _ => 1
  | .internal cs => sizeList cs + 1

/-- Total structural size of a list of nodes. -/
def sizeList {L : Type} : List (Node L) → Nat
  | [] => 0
  | c :: cs => c.size + sizeList cs

end

theorem sizeList_append (xs ys : List (Node L)) :
    sizeList (xs ++ ys) = sizeList xs + sizeList ys := by
  induction xs with
  | nil => simp [sizeList]
  | cons x xs ih => simp [sizeList, ih]; omega

/-- Size of the held node, for termination of the descent loops. -/
def curSize : Option (Node L) → Nat
  | none => 0
  | some n => n.size

section DescendSize

variable [Info α] [Inhabited α] [Leaf L α] [PathInfo I α]

theorem descend_last_size (c c2 : CursorMutT L I) (n : Node L)
    (h : c.descend_last 0 = (c2, some n)) :
    curSize c2.cur_node < curSize c.cur_node := by
  match hc : c.cur_node with
  | none =>
    unfold CursorMutT.descend_last CursorMutT.descend_by_ext at h
    rw [hc] at h; simp at h
  | some (.leaf l) =>
    unfold CursorMutT.descend_last CursorMutT.descend_by_ext at h
    rw [hc] at h; simp [Node.gather_traverse_rev] at h
  | some (.internal cs) =>
    rcases List.eq_nil_or_concat cs with rfl | ⟨ds, d, rfl⟩
    · unfold CursorMutT.descend_last CursorMutT.descend_by_ext at h
      rw [hc] at h; simp [Node.gather_traverse_rev, traverseRevGo] at h
    · rw [List.concat_eq_append] at hc
      rw [descend_last_zero_spec c ds d hc] at h
      cases h
      simp only [hc, curSize, Node.size, List.concat_eq_append, sizeList_append, sizeList]
      omega

theorem descend_zero_size (c c2 : CursorMutT L I) (n : Node L)
    (h : c.descend 0 = (c2, some n)) :
    curSize c2.cur_node < curSize c.cur_node := by
  match hc : c.cur_node with
  | none =>
    unfold CursorMutT.descend CursorMutT.descend_by_ext at h
    rw [hc] at h; simp at h
  | some (.leaf l) =>
    unfold CursorMutT.descend CursorMutT.descend_by_ext at h
    rw [hc] at h; simp [Node.gather_traverse] at h
  | some (.internal []) =>
    unfold CursorMutT.descend CursorMutT.descend_by_ext at h
    rw [hc] at h; simp [Node.gather_traverse, traverseGo] at h
  | some (.internal (e :: es)) =>
    rw [descend_zero_spec c e es hc] at h
    cases h
    simp only [hc, curSize, Node.size, sizeList]
    omega

end DescendSize

section Insertion

variable [Info α] [Inhabited α] [Leaf L α] [PathInfo I α]

/-- The `while let Some(_) = self.descend(0) {}` loop of `CursorMutT::insert`
(`src/cursor_mut.rs` line 151): descend into the first child until no further
descent is possible. -/
def descendAllFirst (c : CursorMutT L I) : CursorMutT L I :=
  match h : c.descend 0 with
  | (c2, some _) => descendAllFirst c2
  | (c2, none) => c2
termination_by curSize c.cur_node
decreasing_by exact descend_zero_size c c2 _ h

/-- The `while let Some(_) = self.descend_last(0) {}` loop of
`CursorMutT::insert_after` (`src/cursor_mut.rs` line 157): descend into the last
child until no further descent is possible. -/
def descendAllLast (c : CursorMutT L I) : CursorMutT L I :=
  match h : c.descend_last 0 with
  | (c2, some _) => descendAllLast c2
  | (c2, none) => c2
termination_by curSize c.cur_node
decreasing_by exact descend_last_size c c2 _ h

end Insertion

/-- Embeds `insert_maybe_split` (`src/cursor_mut.rs` lines 183-199).  If the array
is not full, insert and return no sibling.  If it is full, the source's
`NVec::insert` shifts the elements after `idx` up and hands back the overflowing
last element, `drain(MIN_CHILDREN+1..)` moves the tail into a fresh array, and the
overflowing element is pushed onto it; the net effect on the conceptual
`maxC + 1`-element sequence (the array with `newnode` inserted at its slot) is to
keep the first `minC + 1` entries and to move the rest into a new sibling node. -/
def insert_maybe_split (maxC minC : Nat) (nodes : List (Node L)) (idx : Nat)
    (newnode : Node L) : List (Node L) × Option (Node L) :=
  if nodes.length < maxC then
    (nvecInsert idx newnode nodes, none)
  else
    let all := nvecInsert idx newnode nodes
    (all.take (minC + 1), some (Node.from_nodes (all.drop (minC + 1))))

/-- The recursion of `CursorMutT::insert_raw` (`src/cursor_mut.rs` lines 202-239),
peeled of the `cur_node` unpacking: one ascent step is popped per call.  With no
step left the held node is the root and is concatenated with the new node (order
per `after`).  Otherwise the held node is reinserted at its recorded slot, the new
node is inserted next to it (before or after per `after`); on overflow the split-off
sibling is recursively inserted one level further up with `after = true`, the
rebuilt parent becoming the held node; otherwise the just-inserted node is
re-removed and held, and the step's index is updated to its position.  (The
re-removal is the source's `remove(newidx)`, an `Option` guarded only by a
`debug_assert`, modelled by `nodes2[newidx]?`.) -/
def insert_raw_go (maxC minC : Nat) :
    List (CursorMutStep L I) → Node L → Node L → Bool → CursorMutT L I
  | [], cur, newnode, after =>
    { cur_node := some (if after then cur.concat newnode else newnode.concat cur),
      steps := [] }
  | cstep :: rest, cur, newnode, after =>
    let nodes1 := nvecInsert cstep.idx cur cstep.nodes
    let newidx := if after then cstep.idx + 1 else cstep.idx
    match insert_maybe_split maxC minC nodes1 newidx newnode with
    | (nodes2, some split_node) =>
      insert_raw_go maxC minC rest (Node.from_nodes nodes2) split_node true
    | (nodes2, none) =>
      { cur_node := nodes2[newidx]?,
        steps := { nodes := nodes2.eraseIdx newidx, idx := newidx,
                   extra := cstep.extra } :: rest }

/-- Embeds `CursorMutT::insert_raw` (`src/cursor_mut.rs` lines 202-239): on an
entirely empty cursor the new node becomes the tree; otherwise the recursion
`insert_raw_go` runs on the ascent steps.  The source's
`assert_eq!(cur_node.height(), newnode.height())` is a programming-error panic on a
violated precondition; the model is total. -/
def CursorMutT.insert_raw (c : CursorMutT L I) (maxC minC : Nat) (newnode : Node L)
    (after : Bool) : CursorMutT L I :=
  match c.cur_node with
  | some cur => insert_raw_go maxC minC c.steps cur newnode after
  | none => { c with cur_node := some newnode }

section InsertApi

variable [Info α] [Inhabited α] [Leaf L α] [PathInfo I α]

/-- Embeds `CursorMutT::insert` (`src/cursor_mut.rs` lines 150-153): descend via
child index 0 until no further descent is possible, then insert the leaf-wrapped
node before the held node. -/
def CursorMutT.insert (c : CursorMutT L I) (maxC minC : Nat) (leaf : L) : CursorMutT L I :=
  (descendAllFirst c).insert_raw maxC minC (Node.from_leaf leaf) false

/-- Embeds `CursorMutT::insert_after` (`src/cursor_mut.rs` lines 156-159): descend
via the last child until no further descent is possible, then insert the
leaf-wrapped node after the held node. -/
def CursorMutT.insert_after (c : CursorMutT L I) (maxC minC : Nat) (leaf : L) :
    CursorMutT L I :=
  (descendAllLast c).insert_raw maxC minC (Node.from_leaf leaf) true

/-- The inner loop of `FromIterator::from_iter` (`src/cursor_mut.rs` lines 256-261):
descend via the last child while the held node's height exceeds 1.  (The loop body
recurses regardless of the descent's own result; a failed descent with height above
1 cannot occur, and the model returns the cursor there to stay total.) -/
def descendWhileTall (c : CursorMutT L I) : CursorMutT L I :=
  match c.cur_node with
  | none => c
  | some n =>
    if n.height > 1 then
      match h : c.descend_last 0 with
      | (c2, some _) => descendWhileTall c2
      | (_, none) => c
    else c
termination_by curSize c.cur_node
decreasing_by exact descend_last_size c c2 _ h

/-- The outer loop of `FromIterator::from_iter` (`src/cursor_mut.rs` lines 255-268):
descend to the rightmost leaf-level container, take up to `maxC` leaves from the
remaining input, pack them into one new leaf-level node and insert it after the
current position; stop when the input is exhausted. -/
def from_iter_go (maxC minC : Nat) (c : CursorMutT L I) (ls : List L) : CursorMutT L I :=
  match hb : ls.take maxC with
  | [] => descendWhileTall c
  | _ :: _ =>
    from_iter_go maxC minC
      ((descendWhileTall c).insert_raw maxC minC
        (Node.from_nodes ((ls.take maxC).map Node.from_leaf)) true)
      (ls.drop maxC)
termination_by ls.length
decreasing_by
  have h1 : ls ≠ [] := by
    intro he; rw [he] at hb; simp at hb
  have h2 : maxC ≠ 0 := by
    intro he; rw [he] at hb; simp at hb
  have := List.length_pos.mpr h1
  simp only [List.length_drop]
  omega

/-- Embeds `impl FromIterator for CursorMutT` (`src/cursor_mut.rs` lines 250-271):
bulk construction of a cursor from an ordered sequence of leaves, starting from an
empty cursor. -/
def CursorMutT.from_iter (maxC minC : Nat) (ls : List L) : CursorMutT L I :=
  from_iter_go maxC minC CursorMutT.new ls

end InsertApi

/-! ## Leaf-sequence bookkeeping

The round-trip claims are settled through an invariant on cursor states: during a
rightmost-position build, the leaf sequence of the tree the cursor would reassemble
is tracked exactly. -/

/-- Leaf sequence of an optional tree. -/
def optLeaves : Option (Node L) → List L
  | some n => n.leaves
  | none => []

@[simp] theorem leaves_leaf (l : L) : (Node.leaf l).leaves = [l] := rfl

@[simp] theorem leaves_internal (cs : List (Node L)) :
    (Node.internal cs).leaves = leavesList cs := rfl

@[simp] theorem leavesList_nil : leavesList ([] : List (Node L)) = [] := rfl

@[simp] theorem leavesList_cons (c : Node L) (cs : List (Node L)) :
    leavesList (c :: cs) = c.leaves ++ leavesList cs := rfl

theorem leavesList_append (xs ys : List (Node L)) :
    leavesList (xs ++ ys) = leavesList xs ++ leavesList ys := by
  induction xs with
  | nil => simp
  | cons x xs ih => simp [ih]

theorem leavesList_map_from_leaf (ls : List L) :
    leavesList (ls.map Node.from_leaf) = ls := by
  induction ls with
  | nil => simp
  | cons l ls ih => simp [Node.from_leaf, ih]

section LeafSeq

/-- The in-order leaf sequence of the whole tree a cursor stands in (the tree
`into_root` would reassemble). -/
def cursorLeaves (c : CursorMutT L I) : List L :=
  optLeaves c.into_root

/-- Leaf sequence contributed by a stack of ascent steps wrapped around an inner
leaf sequence, assuming the removed position is everywhere the rightmost one. -/
def spineLeaves : List (CursorMutStep L I) → List L → List L
  | [], acc => acc
  | s :: rest, acc => spineLeaves rest (leavesList s.nodes ++ acc)

/-- A cursor position on the rightmost spine: at every level the current node was
removed from the last slot of its sibling array. -/
def RightSpine (steps : List (CursorMutStep L I)) : Prop :=
  ∀ s ∈ steps, s.idx = s.nodes.length

/-- Cursor states arising during a rightmost build: rightmost position, and an
absent current node only on the fully empty cursor. -/
def GoodBuild (c : CursorMutT L I) : Prop :=
  RightSpine c.steps ∧ (c.cur_node = none → c.steps = [])

theorem spineLeaves_append (steps : List (CursorMutStep L I)) (x y : List L) :
    spineLeaves steps x ++ y = spineLeaves steps (x ++ y) := by
  induction steps generalizing x with
  | nil => rfl
  | cons s rest ih => simp [spineLeaves, ih]

theorem resetGo_leaves (steps : List (CursorMutStep L I)) (cur : Node L)
    (h : RightSpine steps) :
    optLeaves (resetGo steps cur).cur_node = spineLeaves steps cur.leaves := by
  induction steps generalizing cur with
  | nil => rfl
  | cons s rest ih =>
    have hidx : s.idx = s.nodes.length := h s (by simp)
    have hrest : RightSpine rest := fun t ht => h t (by simp [ht])
    simp only [resetGo, spineLeaves, ih _ hrest, hidx, nvecInsert_length_self,
      Node.from_nodes, leaves_internal, leavesList_append]
    simp

theorem cursorLeaves_some (cur : Node L) (steps : List (CursorMutStep L I))
    (h : RightSpine steps) :
    cursorLeaves ({ cur_node := some cur, steps := steps } : CursorMutT L I) =
      spineLeaves steps cur.leaves := by
  simp only [cursorLeaves, CursorMutT.into_root, CursorMutT.reset]
  exact resetGo_leaves steps cur h

@[simp] theorem cursorLeaves_empty (steps : List (CursorMutStep L I)) :
    cursorLeaves ({ cur_node := none, steps := steps } : CursorMutT L I) = [] := rfl

end LeafSeq

section BuildLemmas

variable [Info α] [Inhabited α] [Leaf L α] [PathInfo I α]

theorem RightSpine.nil : RightSpine ([] : List (CursorMutStep L I)) :=
  fun s hs => absurd hs (by simp)

theorem RightSpine.of_cons {s : CursorMutStep L I} {rest : List (CursorMutStep L I)}
    (h : RightSpine (s :: rest)) : RightSpine rest :=
  fun t ht => h t (by simp [ht])

/-- Inserting after the current node on the rightmost spine appends the new node's
leaves at the end of the cursor's whole leaf sequence, stays on the rightmost
spine, and always holds a node afterwards. -/
theorem insert_raw_go_append (maxC minC : Nat) (steps : List (CursorMutStep L I))
    (cur newnode : Node L) (h : RightSpine steps) :
    RightSpine (insert_raw_go maxC minC steps cur newnode true).steps ∧
    (insert_raw_go maxC minC steps cur newnode true).cur_node.isSome = true ∧
    cursorLeaves (insert_raw_go maxC minC steps cur newnode true) =
      spineLeaves steps cur.leaves ++ newnode.leaves := by
  induction steps generalizing cur newnode with
  | nil =>
    refine ⟨RightSpine.nil, by simp [insert_raw_go], ?_⟩
    rw [insert_raw_go, cursorLeaves_some _ _ RightSpine.nil]
    simp [Node.concat, spineLeaves]
  | cons s rest ih =>
    have hidx : s.idx = s.nodes.length := h s (by simp)
    have hrest : RightSpine rest := h.of_cons
    have hnodes1 : nvecInsert s.idx cur s.nodes = s.nodes ++ [cur] := by
      rw [hidx, nvecInsert_length_self]
    have hlen1 : (s.nodes ++ [cur]).length = s.idx + 1 := by simp [hidx]
    have hins : nvecInsert (s.idx + 1) newnode (s.nodes ++ [cur]) =
        (s.nodes ++ [cur]) ++ [newnode] := by
      rw [← hlen1, nvecInsert_length_self]
    by_cases hfull : (s.nodes ++ [cur]).length < maxC
    · have hres : insert_raw_go maxC minC (s :: rest) cur newnode true =
          { cur_node := some newnode,
            steps := { nodes := s.nodes ++ [cur], idx := s.idx + 1,
                       extra := s.extra } :: rest } := by
        simp only [insert_raw_go, hnodes1, if_true, insert_maybe_split, if_pos hfull, hins]
        rw [← hlen1, getq_concat, eraseIdx_concat, hlen1]
      rw [hres]
      have hspine :
          RightSpine
            (({ nodes := s.nodes ++ [cur], idx := s.idx + 1,
                extra := s.extra } : CursorMutStep L I) :: rest) := by
        intro t ht
        rcases List.mem_cons.mp ht with rfl | ht2
        · simpa using hlen1.symm
        · exact hrest t ht2
      refine ⟨hspine, rfl, ?_⟩
      rw [cursorLeaves_some _ _ hspine]
      simp only [spineLeaves, leavesList_append, spineLeaves_append]
      simp
    · have hres : insert_raw_go maxC minC (s :: rest) cur newnode true =
          insert_raw_go maxC minC rest
            (Node.from_nodes ((((s.nodes ++ [cur]) ++ [newnode]).take (minC + 1))))
            (Node.from_nodes ((((s.nodes ++ [cur]) ++ [newnode]).drop (minC + 1)))) true := by
        simp only [insert_raw_go, hnodes1, if_true, insert_maybe_split, if_neg hfull, hins]
      rw [hres]
      obtain ⟨ih1, ih2, ih3⟩ := ih _ _ hrest
      refine ⟨ih1, ih2, ?_⟩
      rw [ih3]
      simp only [Node.from_nodes, leaves_internal, spineLeaves_append, spineLeaves]
      rw [← leavesList_append, List.take_append_drop, leavesList_append, leavesList_append]
      simp


/-- A successful `descend_last(0)` came from an internal node and moved onto its
last child, pushing a rightmost step. -/
theorem descend_last_shape (c c2 : CursorMutT L I) (n : Node L)
    (h : c.descend_last 0 = (c2, some n)) :
    ∃ (ds : List (Node L)) (d : Node L) (e : I),
      c.cur_node = some (Node.internal (ds ++ [d])) ∧
      c2 = { cur_node := some d,
             steps := { nodes := ds, idx := ds.length, extra := e } :: c.steps } := by
  match hc : c.cur_node with
  | none =>
    unfold CursorMutT.descend_last CursorMutT.descend_by_ext at h
    rw [hc] at h; simp at h
  | some (.leaf l) =>
    unfold CursorMutT.descend_last CursorMutT.descend_by_ext at h
    rw [hc] at h; simp [Node.gather_traverse_rev] at h
  | some (.internal cs) =>
    rcases List.eq_nil_or_concat cs with rfl | ⟨ds, d, rfl⟩
    · unfold CursorMutT.descend_last CursorMutT.descend_by_ext at h
      rw [hc] at h; simp [Node.gather_traverse_rev, traverseRevGo] at h
    · rw [List.concat_eq_append] at hc
      rw [descend_last_zero_spec c ds d hc] at h
      cases h
      refine ⟨ds, _, _, ?_, rfl⟩
      rw [List.concat_eq_append]

/-- A failed `descend_last(0)` leaves the cursor unchanged. -/
theorem descend_last_zero_none (c c2 : CursorMutT L I)
    (h : c.descend_last 0 = (c2, none)) : c2 = c := by
  match hc : c.cur_node with
  | none =>
    unfold CursorMutT.descend_last CursorMutT.descend_by_ext at h
    rw [hc] at h; simp at h; exact h.symm
  | some (.leaf l) =>
    unfold CursorMutT.descend_last CursorMutT.descend_by_ext at h
    rw [hc] at h; simp [Node.gather_traverse_rev] at h; exact h.symm
  | some (.internal cs) =>
    rcases List.eq_nil_or_concat cs with rfl | ⟨ds, d, rfl⟩
    · unfold CursorMutT.descend_last CursorMutT.descend_by_ext at h
      rw [hc] at h; simp [Node.gather_traverse_rev, traverseRevGo] at h; exact h.symm
    · rw [List.concat_eq_append] at hc
      rw [descend_last_zero_spec c ds d hc] at h
      simp at h

/-- A successful `descend_last(0)` preserves the build invariant and the cursor's
whole leaf sequence. -/
theorem descend_last_good (c c2 : CursorMutT L I) (n : Node L)
    (h : c.descend_last 0 = (c2, some n)) (hg : GoodBuild c) :
    GoodBuild c2 ∧ cursorLeaves c2 = cursorLeaves c := by
  obtain ⟨ds, d, e, hc, rfl⟩ := descend_last_shape c c2 n h
  have hceq : c = { cur_node := some (Node.internal (ds ++ [d])), steps := c.steps } := by
    cases c; simp_all
  have hspine :
      RightSpine
        (({ nodes := ds, idx := ds.length, extra := e } : CursorMutStep L I) :: c.steps) := by
    intro t ht
    rcases List.mem_cons.mp ht with rfl | ht2
    · rfl
    · exact hg.1 t ht2
  constructor
  · exact ⟨hspine, by simp⟩
  · rw [cursorLeaves_some _ _ hspine]
    conv_rhs => rw [hceq]
    rw [cursorLeaves_some _ _ hg.1]
    simp [spineLeaves, leavesList_append]

theorem descendAllLast_eq_some (c c2 : CursorMutT L I) (n : Node L)
    (h : c.descend_last 0 = (c2, some n)) :
    descendAllLast c = descendAllLast c2 := by
  rw [descendAllLast.eq_def]
  split
  · rename_i c2b nb hb
    have hbb := hb.symm.trans h
    injection hbb with h1 h2
    subst h1
    rfl
  · rename_i c2b hb
    exact absurd (hb.symm.trans h) (by simp)

theorem descendAllLast_eq_none (c c2 : CursorMutT L I)
    (h : c.descend_last 0 = (c2, none)) :
    descendAllLast c = c2 := by
  rw [descendAllLast.eq_def]
  split
  · rename_i c2b nb hb
    exact absurd (hb.symm.trans h) (by simp)
  · rename_i c2b hb
    exact congrArg Prod.fst (hb.symm.trans h)

/-- The descent loop of `insert_after` preserves the build invariant and the
cursor's whole leaf sequence. -/
theorem descendAllLast_spec :
    ∀ (k : Nat) (c : CursorMutT L I), curSize c.cur_node ≤ k → GoodBuild c →
      GoodBuild (descendAllLast c) ∧ cursorLeaves (descendAllLast c) = cursorLeaves c := by
  intro k
  induction k with
  | zero =>
    intro c hk hg
    match hd : c.descend_last 0 with
    | (c2, some n) =>
      have := descend_last_size c c2 n hd
      omega
    | (c2, none) =>
      rw [descendAllLast_eq_none c c2 hd, descend_last_zero_none c c2 hd]
      exact ⟨hg, rfl⟩
  | succ k ih =>
    intro c hk hg
    match hd : c.descend_last 0 with
    | (c2, some n) =>
      rw [descendAllLast_eq_some c c2 n hd]
      have hlt := descend_last_size c c2 n hd
      obtain ⟨hg2, hl2⟩ := descend_last_good c c2 n hd hg
      have hih := ih c2 (by omega) hg2
      exact ⟨hih.1, hih.2.trans hl2⟩
    | (c2, none) =>
      rw [descendAllLast_eq_none c c2 hd, descend_last_zero_none c c2 hd]
      exact ⟨hg, rfl⟩

theorem descendAllLast_good (c : CursorMutT L I) (hg : GoodBuild c) :
    GoodBuild (descendAllLast c) ∧ cursorLeaves (descendAllLast c) = cursorLeaves c :=
  descendAllLast_spec (curSize c.cur_node) c le_rfl hg

/-- `insert_raw` with `after = true` appends the new node's leaves to the cursor's
whole leaf sequence and preserves the build invariant. -/
theorem insert_raw_append (maxC minC : Nat) (c : CursorMutT L I) (nn : Node L)
    (hg : GoodBuild c) :
    GoodBuild (c.insert_raw maxC minC nn true) ∧
    cursorLeaves (c.insert_raw maxC minC nn true) = cursorLeaves c ++ nn.leaves := by
  match hc : c.cur_node with
  | none =>
    have hsteps : c.steps = [] := hg.2 hc
    have hceq : c = ({ cur_node := none, steps := [] } : CursorMutT L I) := by
      cases c; simp_all
    rw [hceq]
    have hres : (({ cur_node := none, steps := [] } : CursorMutT L I)).insert_raw
        maxC minC nn true = { cur_node := some nn, steps := [] } := by
      simp [CursorMutT.insert_raw]
    rw [hres]
    refine ⟨⟨RightSpine.nil, by simp⟩, ?_⟩
    rw [cursorLeaves_some _ _ RightSpine.nil]
    simp [spineLeaves]
  | some cur =>
    have hceq : c = { cur_node := some cur, steps := c.steps } := by cases c; simp_all
    have hres : c.insert_raw maxC minC nn true = insert_raw_go maxC minC c.steps cur nn true := by
      simp [CursorMutT.insert_raw, hc]
    obtain ⟨h1, h2, h3⟩ := insert_raw_go_append maxC minC c.steps cur nn hg.1
    rw [hres]
    refine ⟨⟨h1, fun hn => ?_⟩, ?_⟩
    · rw [hn] at h2; simp at h2
    · rw [h3]
      conv_rhs => rw [hceq]
      rw [cursorLeaves_some _ _ hg.1]

/-- `insert_after` appends the given leaf to the cursor's whole leaf sequence and
preserves the build invariant. -/
theorem insert_after_append (maxC minC : Nat) (c : CursorMutT L I) (l : L)
    (hg : GoodBuild c) :
    GoodBuild (c.insert_after maxC minC l) ∧
    cursorLeaves (c.insert_after maxC minC l) = cursorLeaves c ++ [l] := by
  obtain ⟨hg2, hl2⟩ := descendAllLast_good c hg
  obtain ⟨hg3, hl3⟩ := insert_raw_append maxC minC (descendAllLast c) (Node.from_leaf l) hg2
  rw [CursorMutT.insert_after]
  exact ⟨hg3, by rw [hl3, hl2]; rfl⟩

theorem Node.size_pos (n : Node L) : 0 < n.size := by
  cases n <;> simp [Node.size]

theorem descendWhileTall_eq_none (c : CursorMutT L I) (hc : c.cur_node = none) :
    descendWhileTall c = c := by
  rw [descendWhileTall.eq_def, hc]

theorem descendWhileTall_eq_low (c : CursorMutT L I) (n : Node L)
    (hc : c.cur_node = some n) (hh : ¬n.height > 1) :
    descendWhileTall c = c := by
  rw [descendWhileTall.eq_def, hc]
  simp [hh]

theorem descendWhileTall_eq_some (c c2 : CursorMutT L I) (n nd : Node L)
    (hc : c.cur_node = some n) (hh : n.height > 1)
    (hd : c.descend_last 0 = (c2, some nd)) :
    descendWhileTall c = descendWhileTall c2 := by
  rw [descendWhileTall.eq_def, hc]
  dsimp only
  rw [if_pos hh]
  split
  · rename_i c2b nb hb
    have hbb := hb.symm.trans hd
    injection hbb with h1 h2
    subst h1
    rfl
  · rename_i c2b hb
    exact absurd (hb.symm.trans hd) (by simp)

theorem descendWhileTall_eq_fail (c c2 : CursorMutT L I) (n : Node L)
    (hc : c.cur_node = some n) (hh : n.height > 1)
    (hd : c.descend_last 0 = (c2, none)) :
    descendWhileTall c = c := by
  rw [descendWhileTall.eq_def, hc]
  dsimp only
  rw [if_pos hh]
  split
  · rename_i c2b nb hb
    exact absurd (hb.symm.trans hd) (by simp)
  · rfl

/-- The inner descent loop of `from_iter` preserves the build invariant and the
cursor's whole leaf sequence. -/
theorem descendWhileTall_spec :
    ∀ (k : Nat) (c : CursorMutT L I), curSize c.cur_node ≤ k → GoodBuild c →
      GoodBuild (descendWhileTall c) ∧
      cursorLeaves (descendWhileTall c) = cursorLeaves c := by
  intro k
  induction k with
  | zero =>
    intro c hk hg
    match hc : c.cur_node with
    | none => rw [descendWhileTall_eq_none c hc]; exact ⟨hg, rfl⟩
    | some n =>
      have := Node.size_pos n
      rw [hc] at hk
      simp only [curSize] at hk
      omega
  | succ k ih =>
    intro c hk hg
    match hc : c.cur_node with
    | none => rw [descendWhileTall_eq_none c hc]; exact ⟨hg, rfl⟩
    | some n =>
      by_cases hh : n.height > 1
      · match hd : c.descend_last 0 with
        | (c2, some nd) =>
          rw [descendWhileTall_eq_some c c2 n nd hc hh hd]
          have hlt := descend_last_size c c2 nd hd
          obtain ⟨hg2, hl2⟩ := descend_last_good c c2 nd hd hg
          have hih := ih c2 (by omega) hg2
          exact ⟨hih.1, hih.2.trans hl2⟩
        | (c2, none) =>
          rw [descendWhileTall_eq_fail c c2 n hc hh hd]
          exact ⟨hg, rfl⟩
      · rw [descendWhileTall_eq_low c n hc hh]; exact ⟨hg, rfl⟩

theorem descendWhileTall_good (c : CursorMutT L I) (hg : GoodBuild c) :
    GoodBuild (descendWhileTall c) ∧
    cursorLeaves (descendWhileTall c) = cursorLeaves c :=
  descendWhileTall_spec (curSize c.cur_node) c le_rfl hg

theorem from_iter_go_eq_nil (maxC minC : Nat) (c : CursorMutT L I) (ls : List L)
    (h : ls.take maxC = []) :
    from_iter_go maxC minC c ls = descendWhileTall c := by
  rw [from_iter_go.eq_def]
  split
  · rfl
  · rename_i x xs hb
    rw [h] at hb
    simp at hb

theorem from_iter_go_eq_cons (maxC minC : Nat) (c : CursorMutT L I) (ls : List L)
    (x : L) (xs : List L) (h : ls.take maxC = x :: xs) :
    from_iter_go maxC minC c ls =
      from_iter_go maxC minC
        ((descendWhileTall c).insert_raw maxC minC
          (Node.from_nodes ((ls.take maxC).map Node.from_leaf)) true)
        (ls.drop maxC) := by
  rw [from_iter_go.eq_def]
  split
  · rename_i hb
    rw [h] at hb
    simp at hb
  · rfl

/-- The outer loop of `from_iter` appends the remaining input to the cursor's
whole leaf sequence and preserves the build invariant (for a legal fan-out
configuration, `maxC` at least 1). -/
theorem from_iter_go_spec (maxC minC : Nat) (hmax : 1 ≤ maxC) :
    ∀ (k : Nat) (ls : List L) (c : CursorMutT L I), ls.length ≤ k → GoodBuild c →
      GoodBuild (from_iter_go maxC minC c ls) ∧
      cursorLeaves (from_iter_go maxC minC c ls) = cursorLeaves c ++ ls := by
  intro k
  induction k with
  | zero =>
    intro ls c hk hg
    have hls : ls = [] := by
      cases ls with
      | nil => rfl
      | cons x xs => simp at hk
    subst hls
    rw [from_iter_go_eq_nil maxC minC c [] (by simp)]
    obtain ⟨h1, h2⟩ := descendWhileTall_good c hg
    exact ⟨h1, by simp [h2]⟩
  | succ k ih =>
    intro ls c hk hg
    match hls : ls with
    | [] =>
      rw [from_iter_go_eq_nil maxC minC c [] (by simp)]
      obtain ⟨h1, h2⟩ := descendWhileTall_good c hg
      exact ⟨h1, by simp [h2]⟩
    | x :: xs =>
      obtain ⟨m, rfl⟩ : ∃ m, maxC = m + 1 := ⟨maxC - 1, by omega⟩
      have htake : (x :: xs).take (m + 1) = x :: xs.take m := by simp
      rw [from_iter_go_eq_cons (m + 1) minC c (x :: xs) x (xs.take m) htake]
      obtain ⟨hg2, hl2⟩ := descendWhileTall_good c hg
      obtain ⟨hg3, hl3⟩ := insert_raw_append (m + 1) minC (descendWhileTall c)
        (Node.from_nodes (((x :: xs).take (m + 1)).map Node.from_leaf)) hg2
      have hdrop : ((x :: xs).drop (m + 1)).length ≤ k := by
        simp at hk ⊢
        omega
      obtain ⟨hg4, hl4⟩ := ih ((x :: xs).drop (m + 1)) _ hdrop hg3
      refine ⟨hg4, ?_⟩
      rw [hl4, hl3, hl2]
      rw [Node.from_nodes, leaves_internal, leavesList_map_from_leaf]
      rw [List.append_assoc, List.take_append_drop]

/-- Repeated `insert_after` appends the given leaves, in order, to the cursor's
whole leaf sequence, preserving the build invariant. -/
theorem foldl_insert_after (maxC minC : Nat) :
    ∀ (ls : List L) (c : CursorMutT L I), GoodBuild c →
      GoodBuild (ls.foldl (fun a l => a.insert_after maxC minC l) c) ∧
      cursorLeaves (ls.foldl (fun a l => a.insert_after maxC minC l) c) =
        cursorLeaves c ++ ls := by
  intro ls
  induction ls with
  | nil => intro c hg; exact ⟨hg, by simp⟩
  | cons x xs ih =>
    intro c hg
    obtain ⟨hg2, hl2⟩ := insert_after_append maxC minC c x hg
    obtain ⟨hg3, hl3⟩ := ih _ hg2
    refine ⟨hg3, ?_⟩
    rw [List.foldl_cons, hl3, hl2, List.append_assoc]
    rfl

theorem GoodBuild_new : GoodBuild (CursorMutT.new : CursorMutT L I) :=
  ⟨RightSpine.nil, fun _ => rfl⟩

end BuildLemmas

/-! ## The structural invariant (claim C4)

`src/cursor_mut.rs` lines 4-5: a non-empty step stack implies a held node, and an
absent held node means the cursor is fully empty.  Preservation is proved jointly
with the bound that every recorded removal index is within its sibling array —
true of every cursor the operations produce (descent records the removal position,
insertion records the just-inserted position), and required at `insert_raw`'s
re-removal, where the source would panic on an out-of-range index. -/

/-- The structural invariant of `CursorMutT` (`src/cursor_mut.rs` lines 4-5):
`steps` non-empty implies a held node; the held node is absent exactly on the
fully empty cursor. -/
def Inv (c : CursorMutT L I) : Prop :=
  (c.steps ≠ [] → c.cur_node.isSome = true) ∧
  (c.cur_node = none ↔ c.cur_node = none ∧ c.steps = [])

/-- Recorded removal indices are within their sibling arrays. -/
def StepsWF (c : CursorMutT L I) : Prop :=
  ∀ s ∈ c.steps, s.idx ≤ s.nodes.length

theorem inv_of_some {c : CursorMutT L I} {n : Node L} (h : c.cur_node = some n) : Inv c := by
  constructor
  · intro _; rw [h]; rfl
  · rw [h]; simp

theorem inv_of_empty {c : CursorMutT L I} (h : c.steps = []) : Inv c := by
  constructor
  · intro hne; exact absurd h hne
  · simp [h]

theorem nvecInsert_length {β : Type} (n : Nat) (a : β) (l : List β) :
    (nvecInsert n a l).length = l.length + 1 := by
  induction l generalizing n with
  | nil => cases n <;> rfl
  | cons x xs ih =>
    cases n with
    | zero => rfl
    | succ m => simpa [nvecInsert] using ih m

theorem nvecInsert_getq {β : Type} (n : Nat) (a : β) (l : List β) (h : n ≤ l.length) :
    (nvecInsert n a l)[n]? = some a := by
  induction l generalizing n with
  | nil =>
    cases n with
    | zero => rfl
    | succ m => simp at h
  | cons x xs ih =>
    cases n with
    | zero => rfl
    | succ m => simpa [nvecInsert] using ih m (by simpa using h)

theorem length_eraseIdx_of_lt {β : Type} (l : List β) (i : Nat) (h : i < l.length) :
    (l.eraseIdx i).length = l.length - 1 := by
  induction l generalizing i with
  | nil => simp at h
  | cons x xs ih =>
    cases i with
    | zero => simp [List.eraseIdx]
    | succ m =>
      have := ih m (by simpa using h)
      simp only [List.eraseIdx, List.length_cons, this]
      have : m < xs.length := by simpa using h
      omega

theorem traverseGo_bound [Info α] [Inhabited α] [Leaf L α] [PathInfo I α]
    (f : I → α → Nat → Nat → Bool) (n : Nat) :
    ∀ (cs : List (Node L)) (i : Nat) (ext : I) (acc : Option α) (j : Nat) (e : I),
      traverseGo f n cs i ext acc = some (j, e) → i ≤ j ∧ j < i + cs.length := by
  intro cs
  induction cs with
  | nil => intro i ext acc j e h; simp [traverseGo] at h
  | cons c rest ih =>
    intro i ext acc j e h
    simp only [traverseGo] at h
    split at h
    · injection h with h1
      injection h1 with h2 h3
      subst h2
      simp
    · have := ih (i + 1) _ _ j e h
      constructor <;> [omega; (simp only [List.length_cons]; omega)]

theorem traverseRevGo_bound [Info α] [Inhabited α] [Leaf L α] [PathInfo I α]
    (f : I → α → Nat → Nat → Bool) (n : Nat) :
    ∀ (cs : List (Node L)) (i : Nat) (ext : I) (acc : Option α) (j : Nat) (e : I),
      traverseRevGo f n cs i ext acc = some (j, e) → j ≤ n - 1 := by
  intro cs
  induction cs with
  | nil => intro i ext acc j e h; simp [traverseRevGo] at h
  | cons c rest ih =>
    intro i ext acc j e h
    simp only [traverseRevGo] at h
    split at h
    · injection h with h1
      injection h1 with h2 h3
      subst h2
      omega
    · exact ih _ _ _ j e h

section InvPreservation

variable [Info α] [Inhabited α] [Leaf L α] [PathInfo I α]

/-- Every result of `descend_by_ext` is either the unchanged cursor or a cursor
holding a child with one well-formed step pushed. -/
theorem descend_by_ext_cases (c : CursorMutT L I) (f : I → α → Nat → Nat → Bool)
    (reversed : Bool) :
    (c.descend_by_ext f reversed).1 = c ∨
    ∃ (nd : Node L) (cs : List (Node L)) (idx : Nat) (e : I),
      idx < cs.length ∧
      (c.descend_by_ext f reversed).1 =
        { cur_node := some nd,
          steps := { nodes := cs.eraseIdx idx, idx := idx, extra := e } :: c.steps } := by
  match hc : c.cur_node with
  | none =>
    left
    unfold CursorMutT.descend_by_ext
    rw [hc]
  | some (.leaf l) =>
    left
    unfold CursorMutT.descend_by_ext
    rw [hc]
    cases reversed <;> simp [Node.gather_traverse, Node.gather_traverse_rev]
  | some (.internal cs) =>
    unfold CursorMutT.descend_by_ext
    rw [hc]
    dsimp only
    match hres : (if reversed = true then Node.gather_traverse_rev (.internal cs) (c.extra α) f
                  else Node.gather_traverse (.internal cs) (c.extra α) f) with
    | none =>
      left
      rfl
    | some (idx, e) =>
      have hbound : idx < cs.length := by
        cases reversed with
        | false =>
          simp only [Bool.false_eq_true, if_false] at hres
          rw [Node.gather_traverse] at hres
          have := traverseGo_bound f cs.length cs 0 (c.extra α) none idx e hres
          omega
        | true =>
          simp only [if_true] at hres
          rw [Node.gather_traverse_rev] at hres
          rcases List.eq_nil_or_concat cs with rfl | ⟨ds, d, rfl⟩
          · simp [traverseRevGo] at hres
          · have := traverseRevGo_bound f (ds.concat d).length (ds.concat d).reverse 0
              (extendAll (c.extra α) (ds.concat d)) none idx e hres
            simp only [List.concat_eq_append, List.length_append] at this ⊢
            simp at this ⊢
            omega
      right
      refine ⟨cs[idx], cs, idx, e, hbound, ?_⟩
      dsimp only
      unfold CursorMutT.descend_raw
      rw [List.getElem?_eq_getElem hbound]

/-- `descend_by_ext` preserves the joint invariant. -/
theorem inv_descend_by_ext (c : CursorMutT L I) (f : I → α → Nat → Nat → Bool)
    (reversed : Bool) (hi : Inv c) (hw : StepsWF c) :
    Inv (c.descend_by_ext f reversed).1 ∧ StepsWF (c.descend_by_ext f reversed).1 := by
  rcases descend_by_ext_cases c f reversed with he | ⟨nd, cs, idx, e, hb, he⟩
  · rw [he]; exact ⟨hi, hw⟩
  · rw [he]
    refine ⟨inv_of_some rfl, ?_⟩
    intro t ht
    rcases List.mem_cons.mp ht with rfl | ht2
    · simp only
      rw [length_eraseIdx_of_lt cs idx hb]
      omega
    · exact hw t ht2

/-- Exhaustive description of `ascend`: empty cursor and root leave the state
unchanged returning `none`; otherwise the held node is reinserted at the recorded
index, the rebuilt parent is held and returned, and the step is discarded. -/
theorem ascend_eq (c : CursorMutT L I) :
    (c.cur_node = none ∧ c.ascend = (c, none)) ∨
    (∃ cur, c.cur_node = some cur ∧ c.steps = [] ∧ c.ascend = (c, none)) ∨
    (∃ cur cstep rest, c.cur_node = some cur ∧ c.steps = cstep :: rest ∧
      c.ascend =
        ({ cur_node := some (Node.from_nodes (nvecInsert cstep.idx cur cstep.nodes)),
           steps := rest },
         some (Node.from_nodes (nvecInsert cstep.idx cur cstep.nodes)))) := by
  match hc : c.cur_node, hs : c.steps with
  | none, _ =>
    left
    refine ⟨rfl, ?_⟩
    unfold CursorMutT.ascend
    rw [hc]
  | some cur, [] =>
    right; left
    refine ⟨cur, rfl, rfl, ?_⟩
    unfold CursorMutT.ascend
    rw [hc, hs]
  | some cur, cstep :: rest =>
    right; right
    refine ⟨cur, cstep, rest, rfl, rfl, ?_⟩
    unfold CursorMutT.ascend
    rw [hc, hs]

/-- `ascend` preserves the joint invariant. -/
theorem inv_ascend (c : CursorMutT L I) (hi : Inv c) (hw : StepsWF c) :
    Inv c.ascend.1 ∧ StepsWF c.ascend.1 := by
  rcases ascend_eq c with ⟨_, he⟩ | ⟨cur, _, _, he⟩ | ⟨cur, cstep, rest, hc, hs, he⟩
  · rw [he]; exact ⟨hi, hw⟩
  · rw [he]; exact ⟨hi, hw⟩
  · rw [he]
    exact ⟨inv_of_some rfl, fun t ht => hw t (by rw [hs]; exact List.mem_cons_of_mem _ ht)⟩

theorem resetGo_shape (steps : List (CursorMutStep L I)) (cur : Node L) :
    ∃ n, resetGo steps cur = { cur_node := some n, steps := [] } := by
  induction steps generalizing cur with
  | nil => exact ⟨cur, rfl⟩
  | cons s rest ih => exact ih _

/-- `reset` preserves the joint invariant. -/
theorem inv_reset (c : CursorMutT L I) (hi : Inv c) (hw : StepsWF c) :
    Inv c.reset ∧ StepsWF c.reset := by
  match hc : c.cur_node with
  | none =>
    have hr : c.reset = c := by unfold CursorMutT.reset; rw [hc]
    rw [hr]; exact ⟨hi, hw⟩
  | some cur =>
    have hr : c.reset = resetGo c.steps cur := by unfold CursorMutT.reset; rw [hc]
    obtain ⟨n, hn⟩ := resetGo_shape c.steps cur
    rw [hr, hn]
    exact ⟨inv_of_some rfl, fun s hs => absurd hs (by simp)⟩

/-- `insert_raw_go` always ends holding a node, with well-formed steps. -/
theorem inv_insert_raw_go (maxC minC : Nat) :
    ∀ (steps : List (CursorMutStep L I)) (cur nn : Node L) (after : Bool),
      (∀ s ∈ steps, s.idx ≤ s.nodes.length) →
      (insert_raw_go maxC minC steps cur nn after).cur_node.isSome = true ∧
      StepsWF (insert_raw_go maxC minC steps cur nn after) := by
  intro steps
  induction steps with
  | nil =>
    intro cur nn after hw
    refine ⟨rfl, ?_⟩
    intro s hs
    simp [insert_raw_go] at hs
  | cons cstep rest ih =>
    intro cur nn after hw
    have hhead : cstep.idx ≤ cstep.nodes.length := hw cstep (by simp)
    have hrest : ∀ s ∈ rest, s.idx ≤ s.nodes.length := fun s hs => hw s (by simp [hs])
    have hlen1 : (nvecInsert cstep.idx cur cstep.nodes).length = cstep.nodes.length + 1 :=
      nvecInsert_length _ _ _
    have hni : (if after = true then cstep.idx + 1 else cstep.idx) ≤
        (nvecInsert cstep.idx cur cstep.nodes).length := by
      rw [hlen1]; cases after <;> simp <;> omega
    by_cases hfull : (nvecInsert cstep.idx cur cstep.nodes).length < maxC
    · simp only [insert_raw_go, insert_maybe_split, if_pos hfull]
      constructor
      · rw [nvecInsert_getq _ _ _ hni]
        rfl
      · intro t ht
        simp only at ht
        rcases List.mem_cons.mp ht with rfl | ht2
        · simp only
          rw [length_eraseIdx_of_lt _ _ (by rw [nvecInsert_length]; omega)]
          rw [nvecInsert_length]
          omega
        · exact hrest t ht2
    · simp only [insert_raw_go, insert_maybe_split, if_neg hfull]
      exact ih _ _ _ hrest

/-- `insert_raw` preserves the joint invariant. -/
theorem inv_insert_raw (c : CursorMutT L I) (maxC minC : Nat) (nn : Node L)
    (after : Bool) (hi : Inv c) (hw : StepsWF c) :
    Inv (c.insert_raw maxC minC nn after) ∧ StepsWF (c.insert_raw maxC minC nn after) := by
  match hc : c.cur_node with
  | none =>
    have hres : c.insert_raw maxC minC nn after = { c with cur_node := some nn } := by
      unfold CursorMutT.insert_raw; rw [hc]
    rw [hres]
    exact ⟨inv_of_some rfl, fun s hs => hw s hs⟩
  | some cur =>
    have hres : c.insert_raw maxC minC nn after = insert_raw_go maxC minC c.steps cur nn after := by
      unfold CursorMutT.insert_raw; rw [hc]
    obtain ⟨h1, h2⟩ := inv_insert_raw_go maxC minC c.steps cur nn after hw
    rw [hres]
    obtain ⟨n, hn⟩ := Option.isSome_iff_exists.mp h1
    exact ⟨inv_of_some hn, h2⟩

theorem descendAllFirst_eq_some (c c2 : CursorMutT L I) (n : Node L)
    (h : c.descend 0 = (c2, some n)) :
    descendAllFirst c = descendAllFirst c2 := by
  rw [descendAllFirst.eq_def]
  split
  · rename_i c2b nb hb
    have hbb := hb.symm.trans h
    injection hbb with h1 h2
    subst h1
    rfl
  · rename_i c2b hb
    exact absurd (hb.symm.trans h) (by simp)

theorem descendAllFirst_eq_none (c c2 : CursorMutT L I)
    (h : c.descend 0 = (c2, none)) :
    descendAllFirst c = c2 := by
  rw [descendAllFirst.eq_def]
  split
  · rename_i c2b nb hb
    exact absurd (hb.symm.trans h) (by simp)
  · rename_i c2b hb
    exact congrArg Prod.fst (hb.symm.trans h)

/-- The descent loop of `insert` preserves the joint invariant. -/
theorem inv_descendAllFirst :
    ∀ (k : Nat) (c : CursorMutT L I), curSize c.cur_node ≤ k → Inv c → StepsWF c →
      Inv (descendAllFirst c) ∧ StepsWF (descendAllFirst c) := by
  intro k
  induction k with
  | zero =>
    intro c hk hi hw
    match hd : c.descend 0 with
    | (c2, some n) =>
      have := descend_zero_size c c2 n hd
      omega
    | (c2, none) =>
      rw [descendAllFirst_eq_none c c2 hd]
      have hp : (c.descend 0).1 = c2 := by rw [hd]
      obtain ⟨h1, h2⟩ := inv_descend_by_ext c _ false hi hw
      rw [CursorMutT.descend] at hp
      rw [hp] at h1 h2
      exact ⟨h1, h2⟩
  | succ k ih =>
    intro c hk hi hw
    match hd : c.descend 0 with
    | (c2, some n) =>
      rw [descendAllFirst_eq_some c c2 n hd]
      have hlt := descend_zero_size c c2 n hd
      have hp : (c.descend 0).1 = c2 := by rw [hd]
      obtain ⟨h1, h2⟩ := inv_descend_by_ext c _ false hi hw
      rw [CursorMutT.descend] at hp
      rw [hp] at h1 h2
      exact ih c2 (by omega) h1 h2
    | (c2, none) =>
      rw [descendAllFirst_eq_none c c2 hd]
      have hp : (c.descend 0).1 = c2 := by rw [hd]
      obtain ⟨h1, h2⟩ := inv_descend_by_ext c _ false hi hw
      rw [CursorMutT.descend] at hp
      rw [hp] at h1 h2
      exact ⟨h1, h2⟩

/-- The descent loop of `insert_after` preserves the joint invariant. -/
theorem inv_descendAllLast :
    ∀ (k : Nat) (c : CursorMutT L I), curSize c.cur_node ≤ k → Inv c → StepsWF c →
      Inv (descendAllLast c) ∧ StepsWF (descendAllLast c) := by
  intro k
  induction k with
  | zero =>
    intro c hk hi hw
    match hd : c.descend_last 0 with
    | (c2, some n) =>
      have := descend_last_size c c2 n hd
      omega
    | (c2, none) =>
      rw [descendAllLast_eq_none c c2 hd, descend_last_zero_none c c2 hd]
      exact ⟨hi, hw⟩
  | succ k ih =>
    intro c hk hi hw
    match hd : c.descend_last 0 with
    | (c2, some n) =>
      rw [descendAllLast_eq_some c c2 n hd]
      have hlt := descend_last_size c c2 n hd
      have hp : (c.descend_last 0).1 = c2 := by rw [hd]
      obtain ⟨h1, h2⟩ := inv_descend_by_ext c _ true hi hw
      rw [CursorMutT.descend_last] at hp
      rw [hp] at h1 h2
      exact ih c2 (by omega) h1 h2
    | (c2, none) =>
      rw [descendAllLast_eq_none c c2 hd, descend_last_zero_none c c2 hd]
      exact ⟨hi, hw⟩

/-- The inner descent loop of `from_iter` preserves the joint invariant. -/
theorem inv_descendWhileTall :
    ∀ (k : Nat) (c : CursorMutT L I), curSize c.cur_node ≤ k → Inv c → StepsWF c →
      Inv (descendWhileTall c) ∧ StepsWF (descendWhileTall c) := by
  intro k
  induction k with
  | zero =>
    intro c hk hi hw
    match hc : c.cur_node with
    | none => rw [descendWhileTall_eq_none c hc]; exact ⟨hi, hw⟩
    | some n =>
      have := Node.size_pos n
      rw [hc] at hk
      simp only [curSize] at hk
      omega
  | succ k ih =>
    intro c hk hi hw
    match hc : c.cur_node with
    | none => rw [descendWhileTall_eq_none c hc]; exact ⟨hi, hw⟩
    | some n =>
      by_cases hh : n.height > 1
      · match hd : c.descend_last 0 with
        | (c2, some nd) =>
          rw [descendWhileTall_eq_some c c2 n nd hc hh hd]
          have hlt := descend_last_size c c2 nd hd
          have hp : (c.descend_last 0).1 = c2 := by rw [hd]
          obtain ⟨h1, h2⟩ := inv_descend_by_ext c _ true hi hw
          rw [CursorMutT.descend_last] at hp
          rw [hp] at h1 h2
          exact ih c2 (by omega) h1 h2
        | (c2, none) =>
          rw [descendWhileTall_eq_fail c c2 n hc hh hd]
          exact ⟨hi, hw⟩
      · rw [descendWhileTall_eq_low c n hc hh]; exact ⟨hi, hw⟩

/-- The outer loop of `from_iter` preserves the joint invariant. -/
theorem inv_from_iter_go (maxC minC : Nat) :
    ∀ (k : Nat) (ls : List L) (c : CursorMutT L I), ls.length ≤ k → Inv c → StepsWF c →
      Inv (from_iter_go maxC minC c ls) ∧ StepsWF (from_iter_go maxC minC c ls) := by
  intro k
  induction k with
  | zero =>
    intro ls c hk hi hw
    have hls : ls = [] := by
      cases ls with
      | nil => rfl
      | cons x xs => simp at hk
    subst hls
    rw [from_iter_go_eq_nil maxC minC c [] (by simp)]
    exact inv_descendWhileTall (curSize c.cur_node) c le_rfl hi hw
  | succ k ih =>
    intro ls c hk hi hw
    match hb : ls.take maxC with
    | [] =>
      rw [from_iter_go_eq_nil maxC minC c ls hb]
      exact inv_descendWhileTall (curSize c.cur_node) c le_rfl hi hw
    | x :: xs =>
      rw [from_iter_go_eq_cons maxC minC c ls x xs hb]
      have hmax : maxC ≠ 0 := by intro he; rw [he] at hb; simp at hb
      have hlsne : ls ≠ [] := by intro he; rw [he] at hb; simp at hb
      obtain ⟨h1, h2⟩ :=
        inv_descendWhileTall (curSize c.cur_node) c le_rfl hi hw
      obtain ⟨h3, h4⟩ := inv_insert_raw (descendWhileTall c) maxC minC
        (Node.from_nodes ((ls.take maxC).map Node.from_leaf)) true h1 h2
      have hdrop : (ls.drop maxC).length ≤ k := by
        have := List.length_pos.mpr hlsne
        simp only [List.length_drop]
        omega
      exact ih (ls.drop maxC) _ hdrop h3 h4

end InvPreservation

/-! ## Fuel-bounded forms of the loops (claim C10)

The `while`-loop of `reset` and the recursion of `insert_raw` consume one ascent
step per iteration; running them with fuel equal to the length of the step stack
(plus one for `insert_raw`'s base case) reproduces them exactly. -/

/-- The `while let Some(_) = self.ascend() {}` loop of `reset`, limited to `fuel`
iterations. -/
def resetFuel : Nat → CursorMutT L I → CursorMutT L I
  | 0, c => c
  | fuel + 1, c =>
    match c.ascend with
    | (c2, some _) => resetFuel fuel c2
    | (c2, none) => c2

/-- The recursion of `insert_raw` (see `insert_raw_go`), limited to `fuel` calls;
`none` when the fuel runs out. -/
def insertRawGoFuel (maxC minC : Nat) :
    Nat → List (CursorMutStep L I) → Node L → Node L → Bool → Option (CursorMutT L I)
  | 0, _, _, _, _ => none
  | _ + 1, [], cur, newnode, after =>
    some { cur_node := some (if after then cur.concat newnode else newnode.concat cur),
           steps := [] }
  | fuel + 1, cstep :: rest, cur, newnode, after =>
    match insert_maybe_split maxC minC (nvecInsert cstep.idx cur cstep.nodes)
        (if after then cstep.idx + 1 else cstep.idx) newnode with
    | (nodes2, some split_node) =>
      insertRawGoFuel maxC minC fuel rest (Node.from_nodes nodes2) split_node true
    | (nodes2, none) =>
      some { cur_node := nodes2[if after then cstep.idx + 1 else cstep.idx]?,
             steps := { nodes := nodes2.eraseIdx (if after then cstep.idx + 1 else cstep.idx),
                        idx := if after then cstep.idx + 1 else cstep.idx,
                        extra := cstep.extra } :: rest }

theorem resetFuel_go (steps : List (CursorMutStep L I)) (cur : Node L) :
    resetFuel steps.length { cur_node := some cur, steps := steps } = resetGo steps cur := by
  induction steps generalizing cur with
  | nil => rfl
  | cons s rest ih =>
    have ha : ({ cur_node := some cur, steps := s :: rest } : CursorMutT L I).ascend =
        ({ cur_node := some (Node.from_nodes (nvecInsert s.idx cur s.nodes)), steps := rest },
         some (Node.from_nodes (nvecInsert s.idx cur s.nodes))) := by
      unfold CursorMutT.ascend
      rfl
    simp only [List.length_cons, resetFuel, ha, resetGo]
    exact ih _

/-- Fuel equal to the step-stack length runs `reset`'s ascend-loop to completion. -/
theorem resetFuel_eq_reset (c : CursorMutT L I) :
    resetFuel c.steps.length c = c.reset := by
  match hc : c.cur_node with
  | none =>
    have hr : c.reset = c := by unfold CursorMutT.reset; rw [hc]
    rw [hr]
    match hs : c.steps with
    | [] => rfl
    | s :: rest =>
      have ha : c.ascend = (c, none) := by
        unfold CursorMutT.ascend; rw [hc]
      simp only [List.length_cons, resetFuel, ha]
  | some cur =>
    have hceq : c = { cur_node := some cur, steps := c.steps } := by cases c; simp_all
    have hr : c.reset = resetGo c.steps cur := by unfold CursorMutT.reset; rw [hc]
    rw [hr]
    conv_lhs => rw [hceq]
    exact resetFuel_go c.steps cur

/-- Fuel one more than the step-stack length suffices for `insert_raw`'s
recursion. -/
theorem insertRawGoFuel_eq (maxC minC : Nat) :
    ∀ (steps : List (CursorMutStep L I)) (cur nn : Node L) (after : Bool),
      insertRawGoFuel maxC minC (steps.length + 1) steps cur nn after =
        some (insert_raw_go maxC minC steps cur nn after) := by
  intro steps
  induction steps with
  | nil => intro cur nn after; rfl
  | cons cstep rest ih =>
    intro cur nn after
    by_cases hfull : (nvecInsert cstep.idx cur cstep.nodes).length < maxC
    · simp only [List.length_cons, insertRawGoFuel, insert_raw_go, insert_maybe_split,
        if_pos hfull]
    · simp only [List.length_cons, insertRawGoFuel, insert_raw_go, insert_maybe_split,
        if_neg hfull]
      exact ih _ _ _

/-- A successful `ascend` pops exactly one step. -/
theorem ascend_pop (c c2 : CursorMutT L I) (n : Node L) (h : c.ascend = (c2, some n)) :
    c.steps.length = c2.steps.length + 1 := by
  rcases ascend_eq c with ⟨_, he⟩ | ⟨cur, _, _, he⟩ | ⟨cur, cstep, rest, hc, hs, he⟩
  · rw [he] at h; simp at h
  · rw [he] at h; simp at h
  · rw [he] at h
    injection h with h1 h2
    rw [← h1, hs]
    rfl

/-! ## Failed descents and ascents (claim C6) -/

section NoMatch

variable [Info α] [Inhabited α] [Leaf L α] [PathInfo I α]

theorem traverseGo_none (f : I → α → Nat → Nat → Bool)
    (hf : ∀ e a i j, f e a i j = false) (n : Nat) :
    ∀ (cs : List (Node L)) (i : Nat) (ext : I) (acc : Option α),
      traverseGo f n cs i ext acc = none := by
  intro cs
  induction cs with
  | nil => intro i ext acc; rfl
  | cons c rest ih =>
    intro i ext acc
    simp only [traverseGo, hf]
    simp only [Bool.false_eq_true, if_false]
    exact ih _ _ _

theorem traverseRevGo_none (f : I → α → Nat → Nat → Bool)
    (hf : ∀ e a i j, f e a i j = false) (n : Nat) :
    ∀ (cs : List (Node L)) (i : Nat) (ext : I) (acc : Option α),
      traverseRevGo f n cs i ext acc = none := by
  intro cs
  induction cs with
  | nil => intro i ext acc; rfl
  | cons c rest ih =>
    intro i ext acc
    simp only [traverseRevGo, hf]
    simp only [Bool.false_eq_true, if_false]
    exact ih _ _ _

/-- Empty cursor: any descent fails and leaves the state unchanged. -/
theorem descend_by_ext_empty (c : CursorMutT L I) (f : I → α → Nat → Nat → Bool)
    (reversed : Bool) (hc : c.cur_node = none) :
    c.descend_by_ext f reversed = (c, none) := by
  unfold CursorMutT.descend_by_ext
  rw [hc]

/-- Held node is a leaf: any descent fails and leaves the state unchanged. -/
theorem descend_by_ext_leaf (c : CursorMutT L I) (f : I → α → Nat → Nat → Bool)
    (reversed : Bool) (l : L) (hc : c.cur_node = some (Node.leaf l)) :
    c.descend_by_ext f reversed = (c, none) := by
  unfold CursorMutT.descend_by_ext
  rw [hc]
  cases reversed <;> rfl

/-- A predicate matching no child: the descent fails and leaves the state
unchanged. -/
theorem descend_by_ext_no_match (c : CursorMutT L I) (f : I → α → Nat → Nat → Bool)
    (reversed : Bool) (hf : ∀ e a i j, f e a i j = false) :
    c.descend_by_ext f reversed = (c, none) := by
  match hc : c.cur_node with
  | none => exact descend_by_ext_empty c f reversed hc
  | some (.leaf l) => exact descend_by_ext_leaf c f reversed l hc
  | some (.internal cs) =>
    unfold CursorMutT.descend_by_ext
    rw [hc]
    dsimp only
    have hnone : (if reversed = true
        then Node.gather_traverse_rev (.internal cs) (c.extra α) f
        else Node.gather_traverse (.internal cs) (c.extra α) f) = none := by
      cases reversed with
      | false =>
        simp only [Bool.false_eq_true, if_false, Node.gather_traverse]
        exact traverseGo_none f hf _ _ _ _ _
      | true =>
        simp only [if_true, Node.gather_traverse_rev]
        exact traverseRevGo_none f hf _ _ _ _ _
    rw [hnone]

end NoMatch

/-! ## Height bookkeeping for splits (claim C2) -/

theorem nvecInsert_mem {β : Type} (x a : β) :
    ∀ (n : Nat) (l : List β), x ∈ nvecInsert n a l → x = a ∨ x ∈ l := by
  intro n
  induction n with
  | zero =>
    intro l h
    rcases List.mem_cons.mp h with rfl | h2
    · exact Or.inl rfl
    · exact Or.inr h2
  | succ m ih =>
    intro l h
    cases l with
    | nil =>
      simp [nvecInsert] at h
      exact Or.inl h
    | cons b t =>
      simp only [nvecInsert] at h
      rcases List.mem_cons.mp h with rfl | h2
      · exact Or.inr (by simp)
      · rcases ih t h2 with rfl | h3
        · exact Or.inl rfl
        · exact Or.inr (by simp [h3])

theorem heightList_eq_of_forall (h : Nat) :
    ∀ (cs : List (Node L)), cs ≠ [] → (∀ x ∈ cs, x.height = h) → heightList cs = h := by
  intro cs
  induction cs with
  | nil => intro hne _; exact absurd rfl hne
  | cons c rest ih =>
    intro _ hall
    have hc : c.height = h := hall c (by simp)
    cases rest with
    | nil => simp [heightList, hc]
    | cons d t =>
      have := ih (by simp) (fun x hx => hall x (by simp [List.mem_cons.mp hx]))
      simp only [heightList] at this ⊢
      simp [hc, this]

/-! ## Built-in instances and a concrete leaf type

The crate's built-in instances, plus one concrete `Leaf` instance standing in for
the test-suite leaf, so the generic theorems can be evaluated at concrete inputs. -/

/-- Embeds `impl Info for ()` (`src/traits.rs` lines 68-71). -/
instance : Info Unit := ⟨fun _ _ => ()⟩

/-- Embeds `impl Info for usize` (`src/traits.rs` lines 73-76): `gather` is
addition, with `usize` wrapping. -/
instance : Info Nat := ⟨fun a b => (a + b) % usizeMod⟩

/-- Embeds `impl PathInfo for usize` from `src/info_ext.rs` lines 30-39. -/
instance : PathInfo Nat Nat :=
  ⟨info_ext_usize_extend, info_ext_usize_extend_inv, info_ext_usize_identity⟩

/-- Embeds `impl<T> PathInfo<T> for ()` from `src/info_ext.rs` lines 19-28. -/
instance [Info α] : PathInfo Unit α := ⟨fun _ _ => (), fun _ _ => (), ()⟩

/-- A concrete numeric leaf whose info counts one per leaf (standing in for the
crate's test leaf, whose definition is not under `src/`). -/
instance : Leaf Nat Nat := ⟨fun _ => 1⟩

/-! ## The claims -/

/-- Claim C2: when `insert_raw` inserts into a parent child array already holding
`max_children` children, `insert_maybe_split` keeps the first `min_children + 1`
entries of the conceptual array-with-the-new-node-at-its-slot and moves the rest
into a new sibling of the same height; the parent is rebuilt (its aggregate info
is recomputed, being derived in the model), becomes the held node, and the
split-off sibling is inserted one level further up by a recursive `insert_raw`
with `after = true`.  So inserting `max_children + 1` children into one node
triggers exactly one split producing siblings of sizes `min_children + 1` and the
remainder. -/
theorem c2_overflow_split {L I : Type} (maxC minC : Nat) (nodes : List (Node L))
    (idx : Nat) (nn : Node L) (hfull : nodes.length = maxC) (hcfg : minC + 1 ≤ maxC) :
    insert_maybe_split maxC minC nodes idx nn =
      ((nvecInsert idx nn nodes).take (minC + 1),
       some (Node.from_nodes ((nvecInsert idx nn nodes).drop (minC + 1)))) ∧
    ((nvecInsert idx nn nodes).take (minC + 1)).length = minC + 1 ∧
    ((nvecInsert idx nn nodes).drop (minC + 1)).length = maxC - minC ∧
    (∀ h : Nat, (∀ x ∈ nodes, x.height = h) → nn.height = h →
      (Node.from_nodes ((nvecInsert idx nn nodes).take (minC + 1))).height = h + 1 ∧
      (Node.from_nodes ((nvecInsert idx nn nodes).drop (minC + 1))).height = h + 1) ∧
    (∀ (cur : Node L) (s : CursorMutStep L I) (rest : List (CursorMutStep L I))
        (after : Bool),
      (nvecInsert s.idx cur s.nodes).length = maxC →
      CursorMutT.insert_raw { cur_node := some cur, steps := s :: rest } maxC minC nn after =
        CursorMutT.insert_raw
          { cur_node := some (Node.from_nodes
              ((nvecInsert (if after then s.idx + 1 else s.idx) nn
                (nvecInsert s.idx cur s.nodes)).take (minC + 1))),
            steps := rest }
          maxC minC
          (Node.from_nodes ((nvecInsert (if after then s.idx + 1 else s.idx) nn
            (nvecInsert s.idx cur s.nodes)).drop (minC + 1)))
          true) := by
  have hlen : (nvecInsert idx nn nodes).length = maxC + 1 := by
    rw [nvecInsert_length, hfull]
  refine ⟨?_, ?_, ?_, ?_, ?_⟩
  · unfold insert_maybe_split
    rw [if_neg (by omega)]
  · rw [List.length_take, hlen]
    omega
  · rw [List.length_drop, hlen]
    omega
  · intro h hall hnn
    have hmem : ∀ x ∈ nvecInsert idx nn nodes, x.height = h := by
      intro x hx
      rcases nvecInsert_mem x nn idx nodes hx with rfl | hx2
      · exact hnn
      · exact hall x hx2
    constructor
    · have hne : (nvecInsert idx nn nodes).take (minC + 1) ≠ [] := by
        intro he
        have := congrArg List.length he
        rw [List.length_take, hlen] at this
        simp only [List.length_nil] at this
        omega
      have := heightList_eq_of_forall h ((nvecInsert idx nn nodes).take (minC + 1)) hne
        (fun x hx => hmem x (List.take_subset _ _ hx))
      simp [Node.from_nodes, Node.height, this]
    · have hne : (nvecInsert idx nn nodes).drop (minC + 1) ≠ [] := by
        intro he
        have := congrArg List.length he
        rw [List.length_drop, hlen] at this
        simp only [List.length_nil] at this
        omega
      have := heightList_eq_of_forall h ((nvecInsert idx nn nodes).drop (minC + 1)) hne
        (fun x hx => hmem x (List.drop_subset _ _ hx))
      simp [Node.from_nodes, Node.height, this]
  · intro cur s rest after hfull2
    unfold CursorMutT.insert_raw
    simp only [insert_raw_go, insert_maybe_split, if_neg (by omega : ¬(nvecInsert
      s.idx cur s.nodes).length < maxC)]

/-- Witness for C2 at `max_children = 4`, `min_children = 2`: a full node of four
leaves receives a fifth; the split keeps three and moves two into the sibling. -/
theorem c2_overflow_split_witness :
    (([Node.leaf 0, Node.leaf 1, Node.leaf 2, Node.leaf 3] : List (Node Nat)).length = 4 ∧
      2 + 1 ≤ 4) ∧
    (insert_maybe_split 4 2 [Node.leaf 0, Node.leaf 1, Node.leaf 2, Node.leaf 3] 4
        (Node.leaf 9) =
      ((nvecInsert 4 (Node.leaf 9)
          [Node.leaf 0, Node.leaf 1, Node.leaf 2, Node.leaf 3]).take (2 + 1),
       some (Node.from_nodes ((nvecInsert 4 (Node.leaf 9)
          [Node.leaf 0, Node.leaf 1, Node.leaf 2, Node.leaf 3]).drop (2 + 1)))) ∧
      ((nvecInsert 4 (Node.leaf 9)
          [Node.leaf 0, Node.leaf 1, Node.leaf 2, Node.leaf 3]).take (2 + 1)).length = 2 + 1 ∧
      ((nvecInsert 4 (Node.leaf 9)
          [Node.leaf 0, Node.leaf 1, Node.leaf 2, Node.leaf 3]).drop (2 + 1)).length = 4 - 2 ∧
      (∀ h : Nat,
        (∀ x ∈ ([Node.leaf 0, Node.leaf 1, Node.leaf 2, Node.leaf 3] : List (Node Nat)),
          x.height = h) → (Node.leaf 9).height = h →
        (Node.from_nodes ((nvecInsert 4 (Node.leaf 9)
            [Node.leaf 0, Node.leaf 1, Node.leaf 2, Node.leaf 3]).take (2 + 1))).height =
          h + 1 ∧
        (Node.from_nodes ((nvecInsert 4 (Node.leaf 9)
            [Node.leaf 0, Node.leaf 1, Node.leaf 2, Node.leaf 3]).drop (2 + 1))).height =
          h + 1) ∧
      (∀ (cur : Node Nat) (s : CursorMutStep Nat Nat)
          (rest : List (CursorMutStep Nat Nat)) (after : Bool),
        (nvecInsert s.idx cur s.nodes).length = 4 →
        CursorMutT.insert_raw { cur_node := some cur, steps := s :: rest } 4 2
            (Node.leaf 9) after =
          CursorMutT.insert_raw
            { cur_node := some (Node.from_nodes
                ((nvecInsert (if after then s.idx + 1 else s.idx) (Node.leaf 9)
                  (nvecInsert s.idx cur s.nodes)).take (2 + 1))),
              steps := rest }
            4 2
            (Node.from_nodes ((nvecInsert (if after then s.idx + 1 else s.idx) (Node.leaf 9)
              (nvecInsert s.idx cur s.nodes)).drop (2 + 1)))
            true)) :=
  ⟨⟨rfl, by omega⟩,
   c2_overflow_split 4 2 [Node.leaf 0, Node.leaf 1, Node.leaf 2, Node.leaf 3] 4
     (Node.leaf 9) rfl (by omega)⟩

/-- Claim C5: `insert_raw` on a held root (no ascent steps) concatenates root and
new node, order per the `after` flag, into a two-child node one level higher; on
an entirely empty cursor the new node becomes the whole tree. -/
theorem c5_insert_raw_root {L I : Type} (maxC minC : Nat) :
    (∀ (c : CursorMutT L I) (cur nn : Node L) (after : Bool),
      c.cur_node = some cur → c.steps = [] →
      c.insert_raw maxC minC nn after =
        { cur_node := some (if after then cur.concat nn else nn.concat cur), steps := [] }) ∧
    (∀ (cur nn : Node L), cur.height = nn.height →
      (cur.concat nn).height = cur.height + 1 ∧ (nn.concat cur).height = nn.height + 1) ∧
    (∀ (c : CursorMutT L I) (nn : Node L) (after : Bool),
      c.cur_node = none → c.steps = [] →
      c.insert_raw maxC minC nn after = { cur_node := some nn, steps := [] }) := by
  refine ⟨?_, ?_, ?_⟩
  · intro c cur nn after hc hs
    have hceq : c = { cur_node := some cur, steps := [] } := by cases c; simp_all
    rw [hceq]
    unfold CursorMutT.insert_raw
    rfl
  · intro cur nn hh
    constructor <;> simp [Node.concat, Node.height, heightList] <;> omega
  · intro c nn after hc hs
    have hceq : c = { cur_node := none, steps := [] } := by cases c; simp_all
    rw [hceq]
    unfold CursorMutT.insert_raw
    rfl

/-- Witness for C5: a one-leaf root plus a new leaf becomes a two-child node of
height 1; an empty cursor just adopts the new node. -/
theorem c5_insert_raw_root_witness :
    ((CursorMutT.from_node (Node.leaf 7) : CursorMutT Nat Nat).cur_node =
        some (Node.leaf 7) ∧
      (CursorMutT.from_node (Node.leaf 7) : CursorMutT Nat Nat).steps = [] ∧
      (Node.leaf (7 : Nat)).height = (Node.leaf (8 : Nat)).height ∧
      (CursorMutT.new : CursorMutT Nat Nat).cur_node = none ∧
      (CursorMutT.new : CursorMutT Nat Nat).steps = []) ∧
    ((CursorMutT.from_node (Node.leaf 7) : CursorMutT Nat Nat).insert_raw 4 2
        (Node.leaf 8) true =
      { cur_node := some ((Node.leaf 7).concat (Node.leaf 8)), steps := [] } ∧
      ((Node.leaf (7 : Nat)).concat (Node.leaf 8)).height = (Node.leaf (7 : Nat)).height + 1 ∧
      (CursorMutT.new : CursorMutT Nat Nat).insert_raw 4 2 (Node.leaf 8) false =
        { cur_node := some (Node.leaf 8), steps := [] }) := by
  have h := @c5_insert_raw_root Nat Nat 4 2
  refine ⟨⟨rfl, rfl, rfl, rfl, rfl⟩, ?_, ?_, ?_⟩
  · exact h.1 _ _ _ true rfl rfl
  · exact (h.2.1 (Node.leaf 7) (Node.leaf 8) rfl).1
  · exact h.2.2 _ _ false rfl rfl

/-- Claim C7: the claim says `remove(idx)` detaches and returns the child at
`idx`, panicking only on a leaf.  The source's body is `unimplemented!()`
(`src/cursor_mut.rs` line 173): every call panics, even with an internal node
held, so no node is ever detached or returned; the model evaluates to `none` at
the claim's own non-leaf input. -/
theorem c7_remove_unimplemented :
    CursorMutT.remove
      (CursorMutT.from_node (Node.internal [Node.leaf 0, Node.leaf 1]) : CursorMutT Nat Nat)
      0 = none := rfl

/-- Claim C8, counterexample: the two `PathInfo` trait copies do not impose the
same set of operations — `info_ext.rs` additionally demands `identity`.
Concretely, on the carrier `Empty` (with any info type) the `traits.rs` signature
is implementable while the `info_ext.rs` one is not, since it would have to
produce an inhabitant `identity : Empty`. -/
theorem c8_counterexample :
    Nonempty (TraitsPathInfoSig Empty Unit) ∧ ¬Nonempty (InfoExtPathInfoSig Empty Unit) := by
  constructor
  · exact ⟨⟨fun e _ => e, fun e _ => e⟩⟩
  · rintro ⟨ops⟩
    exact ops.identity.elim

/-- Claim C8, amended: for both built-in instances (`()` and `usize`) the
`extend` and `extend_inv` operations of the two trait copies are equal as
functions, and every `info_ext.rs` instance yields a `traits.rs` instance with
the same `extend`/`extend_inv`; but the `info_ext.rs` copy additionally declares
`identity()`, so the two trait definitions do not impose the same set of
operations. -/
theorem c8_amended :
    traits_usize_extend = info_ext_usize_extend ∧
    traits_usize_extend_inv = info_ext_usize_extend_inv ∧
    (∀ R : Type, @traits_unit_extend R = @info_ext_unit_extend R) ∧
    (∀ R : Type, @traits_unit_extend_inv R = @info_ext_unit_extend_inv R) ∧
    (∀ (I R : Type) (ops : InfoExtPathInfoSig I R),
      ∃ t : TraitsPathInfoSig I R, t.extend = ops.extend ∧ t.extend_inv = ops.extend_inv) :=
  ⟨rfl, rfl, fun _ => rfl, fun _ => rfl,
   fun _ _ ops => ⟨⟨ops.extend, ops.extend_inv⟩, rfl, rfl⟩⟩

/-- Claim C9: the built-in `usize` path-info instance (`extend` = addition,
`extend_inv` = subtraction, `identity` = 0) satisfies the `PathInfo` laws for all
`usize` values: `c0.extend(x).extend_inv(x) == c0` and
`x.extend(identity()) == x`; likewise for the `traits.rs` copy's operations. -/
theorem c9_usize_pathinfo_laws (c0 x : Nat) (h0 : c0 < usizeMod) (hx : x < usizeMod) :
    info_ext_usize_extend_inv (info_ext_usize_extend c0 x) x = c0 ∧
    info_ext_usize_extend x info_ext_usize_identity = x ∧
    traits_usize_extend_inv (traits_usize_extend c0 x) x = c0 ∧
    info_ext_usize_identity = 0 := by
  unfold info_ext_usize_extend info_ext_usize_extend_inv info_ext_usize_identity
    traits_usize_extend traits_usize_extend_inv usizeMod
  unfold usizeMod at h0 hx
  refine ⟨by omega, by omega, by omega, rfl⟩

/-- Witness for C9 at `c0 = 5`, `x = 7`. -/
theorem c9_usize_pathinfo_laws_witness :
    (5 < usizeMod ∧ 7 < usizeMod) ∧
    (info_ext_usize_extend_inv (info_ext_usize_extend 5 7) 7 = 5 ∧
      info_ext_usize_extend 7 info_ext_usize_identity = 7 ∧
      traits_usize_extend_inv (traits_usize_extend 5 7) 7 = 5 ∧
      info_ext_usize_identity = 0) :=
  ⟨⟨by norm_num [usizeMod], by norm_num [usizeMod]⟩,
   c9_usize_pathinfo_laws 5 7 (by norm_num [usizeMod]) (by norm_num [usizeMod])⟩

/-- Claim C1: for every finite ordered sequence of leaf values and legal fan-out
configuration (spec section 6: `1 ≤ min_children` and
`2 * min_children ≤ max_children`), building a tree from an empty cursor either
by one `insert_after` per leaf in order or by bulk construction via `from_iter`,
and then calling `into_root`, yields a tree whose in-order leaf sequence is
exactly the input sequence; in particular both constructions produce the same
logical leaf sequence. -/
theorem c1_build_roundtrip [Info α] [Inhabited α] [Leaf L α] [PathInfo I α]
    (maxC minC : Nat) (hmin : 1 ≤ minC) (hmax : 2 * minC ≤ maxC) (ls : List L) :
    optLeaves ((ls.foldl (fun c l => c.insert_after maxC minC l)
        (CursorMutT.new : CursorMutT L I)).into_root) = ls ∧
    optLeaves ((CursorMutT.from_iter maxC minC ls : CursorMutT L I).into_root) = ls ∧
    optLeaves ((ls.foldl (fun c l => c.insert_after maxC minC l)
        (CursorMutT.new : CursorMutT L I)).into_root) =
      optLeaves ((CursorMutT.from_iter maxC minC ls : CursorMutT L I).into_root) := by
  have h1 := (foldl_insert_after maxC minC ls (CursorMutT.new : CursorMutT L I)
    GoodBuild_new).2
  have h2 := (from_iter_go_spec maxC minC (by omega) ls.length ls
    (CursorMutT.new : CursorMutT L I) le_rfl GoodBuild_new).2
  have hnew : cursorLeaves (CursorMutT.new : CursorMutT L I) = [] := rfl
  rw [hnew, List.nil_append] at h1 h2
  refine ⟨h1, ?_, ?_⟩
  · exact h2
  · rw [show optLeaves ((ls.foldl (fun c l => c.insert_after maxC minC l)
        (CursorMutT.new : CursorMutT L I)).into_root) =
      cursorLeaves (ls.foldl (fun c l => c.insert_after maxC minC l)
        (CursorMutT.new : CursorMutT L I)) from rfl]
    rw [show optLeaves ((CursorMutT.from_iter maxC minC ls : CursorMutT L I).into_root) =
      cursorLeaves (CursorMutT.from_iter maxC minC ls : CursorMutT L I) from rfl]
    rw [h1]
    exact h2.symm

/-- Witness for C1 at `max_children = 4`, `min_children = 2` and the sequence
`[5, 6, 7]`. -/
theorem c1_build_roundtrip_witness :
    (1 ≤ 2 ∧ 2 * 2 ≤ 4) ∧
    (optLeaves ((([5, 6, 7] : List Nat).foldl (fun c l => c.insert_after 4 2 l)
        (CursorMutT.new : CursorMutT Nat Nat)).into_root) = [5, 6, 7] ∧
     optLeaves ((CursorMutT.from_iter 4 2 [5, 6, 7] : CursorMutT Nat Nat).into_root) =
        [5, 6, 7] ∧
     optLeaves ((([5, 6, 7] : List Nat).foldl (fun c l => c.insert_after 4 2 l)
        (CursorMutT.new : CursorMutT Nat Nat)).into_root) =
       optLeaves ((CursorMutT.from_iter 4 2 [5, 6, 7] : CursorMutT Nat Nat).into_root)) :=
  ⟨⟨by omega, by omega⟩, c1_build_roundtrip 4 2 (by omega) (by omega) [5, 6, 7]⟩

/-- Claim C3: with a held node and at least one ascent step, `ascend` reinserts
the held node into the sibling array at the recorded index, builds the parent
from that full array (its aggregate info being the gather of all its children's
infos), makes the parent the newly held node, discards the step, and returns the
new held node; on an empty cursor or at the root it returns `none` and the
cursor's position does not change. -/
theorem c3_ascend_rebuild [Info α] [Inhabited α] [Leaf L α] [PathInfo I α] :
    (∀ (c : CursorMutT L I) (cur : Node L) (s : CursorMutStep L I)
        (rest : List (CursorMutStep L I)),
      c.cur_node = some cur → c.steps = s :: rest →
      c.ascend =
        ({ cur_node := some (Node.from_nodes (nvecInsert s.idx cur s.nodes)),
           steps := rest },
         some (Node.from_nodes (nvecInsert s.idx cur s.nodes))) ∧
      ((Node.from_nodes (nvecInsert s.idx cur s.nodes)).info : α) =
        infoList (nvecInsert s.idx cur s.nodes)) ∧
    (∀ c : CursorMutT L I, c.cur_node = none → c.ascend = (c, none)) ∧
    (∀ (c : CursorMutT L I) (cur : Node L),
      c.cur_node = some cur → c.steps = [] → c.ascend = (c, none)) := by
  refine ⟨?_, ?_, ?_⟩
  · intro c cur s rest hc hs
    refine ⟨?_, rfl⟩
    unfold CursorMutT.ascend
    rw [hc, hs]
  · intro c hc
    unfold CursorMutT.ascend
    rw [hc]
  · intro c cur hc hs
    unfold CursorMutT.ascend
    rw [hc, hs]

/-- Witness for C3: ascending from a cursor holding `leaf 5` with one step
reinserting at index 1 beside `leaf 9`. -/
theorem c3_ascend_rebuild_witness :
    ((⟨some (Node.leaf 5), [⟨[Node.leaf 9], 1, 0⟩]⟩ : CursorMutT Nat Nat).cur_node =
        some (Node.leaf 5) ∧
     (⟨some (Node.leaf 5), [⟨[Node.leaf 9], 1, 0⟩]⟩ : CursorMutT Nat Nat).steps =
        [⟨[Node.leaf 9], 1, 0⟩]) ∧
    ((⟨some (Node.leaf 5), [⟨[Node.leaf 9], 1, 0⟩]⟩ : CursorMutT Nat Nat).ascend =
        (⟨some (Node.from_nodes (nvecInsert 1 (Node.leaf 5) [Node.leaf 9])), []⟩,
         some (Node.from_nodes (nvecInsert 1 (Node.leaf 5) [Node.leaf 9]))) ∧
      ((Node.from_nodes (nvecInsert 1 (Node.leaf 5) [Node.leaf 9])).info : Nat) =
        infoList (nvecInsert 1 (Node.leaf 5) [Node.leaf 9])) :=
  ⟨⟨rfl, rfl⟩,
   c3_ascend_rebuild.1 ⟨some (Node.leaf 5), [⟨[Node.leaf 9], 1, 0⟩]⟩ (Node.leaf 5)
     ⟨[Node.leaf 9], 1, 0⟩ [] rfl rfl⟩

/-- Claim C4: every operation of `CursorMutT` preserves the structural invariant
(`steps` non-empty implies `cur_node` is `Some`; `cur_node` is `None` iff the
cursor is fully empty).  `current` and `extra` are pure projections in the model
(the source takes a borrow and does not modify the cursor), and `into_root`'s
final state is `reset`'s.  Preservation is proved under the accompanying
well-formedness of recorded step indices (`StepsWF`), which every reachable
cursor satisfies; the source panics on a violated index before any state change. -/
theorem c4_invariant_preservation [Info α] [Inhabited α] [Leaf L α] [PathInfo I α]
    (maxC minC idx : Nat) (c : CursorMutT L I) (root nn : Node L) (l : L) (ls : List L)
    (f : α → Nat → Nat → Bool) (fe : I → α → Nat → Nat → Bool) (reversed after : Bool)
    (hi : Inv c) (hw : StepsWF c) :
    Inv (CursorMutT.new : CursorMutT L I) ∧
    Inv (CursorMutT.from_node root : CursorMutT L I) ∧
    Inv c.reset ∧
    Inv c.ascend.1 ∧
    Inv (c.descend idx).1 ∧
    Inv (c.descend_last idx).1 ∧
    Inv (c.descend_by f reversed).1 ∧
    Inv (c.descend_by_ext fe reversed).1 ∧
    Inv (c.insert maxC minC l) ∧
    Inv (c.insert_after maxC minC l) ∧
    Inv (c.insert_raw maxC minC nn after) ∧
    Inv (CursorMutT.from_iter maxC minC ls : CursorMutT L I) := by
  refine ⟨inv_of_empty rfl, inv_of_some rfl, (inv_reset c hi hw).1, (inv_ascend c hi hw).1,
    ?_, ?_, ?_, (inv_descend_by_ext c fe reversed hi hw).1, ?_, ?_,
    (inv_insert_raw c maxC minC nn after hi hw).1, ?_⟩
  · rw [CursorMutT.descend]
    exact (inv_descend_by_ext c _ false hi hw).1
  · rw [CursorMutT.descend_last]
    exact (inv_descend_by_ext c _ true hi hw).1
  · rw [CursorMutT.descend_by]
    exact (inv_descend_by_ext c _ reversed hi hw).1
  · rw [CursorMutT.insert]
    obtain ⟨h1, h2⟩ := inv_descendAllFirst (curSize c.cur_node) c le_rfl hi hw
    exact (inv_insert_raw _ maxC minC _ false h1 h2).1
  · rw [CursorMutT.insert_after]
    obtain ⟨h1, h2⟩ := inv_descendAllLast (curSize c.cur_node) c le_rfl hi hw
    exact (inv_insert_raw _ maxC minC _ true h1 h2).1
  · rw [CursorMutT.from_iter]
    exact (inv_from_iter_go maxC minC ls.length ls CursorMutT.new le_rfl
      (inv_of_empty rfl) (fun s hs => absurd hs (by simp [CursorMutT.new]))).1

/-- Witness for C4 on a cursor holding a single leaf. -/
theorem c4_invariant_preservation_witness :
    (Inv (CursorMutT.from_node (Node.leaf 0) : CursorMutT Nat Nat) ∧
     StepsWF (CursorMutT.from_node (Node.leaf 0) : CursorMutT Nat Nat)) ∧
    (Inv (CursorMutT.new : CursorMutT Nat Nat) ∧
     Inv (CursorMutT.from_node (Node.leaf 1) : CursorMutT Nat Nat) ∧
     Inv (CursorMutT.from_node (Node.leaf 0) : CursorMutT Nat Nat).reset ∧
     Inv (CursorMutT.from_node (Node.leaf 0) : CursorMutT Nat Nat).ascend.1 ∧
     Inv ((CursorMutT.from_node (Node.leaf 0) : CursorMutT Nat Nat).descend 0).1 ∧
     Inv ((CursorMutT.from_node (Node.leaf 0) : CursorMutT Nat Nat).descend_last 0).1 ∧
     Inv ((CursorMutT.from_node (Node.leaf 0) : CursorMutT Nat Nat).descend_by
        (fun _ _ _ => false) false).1 ∧
     Inv ((CursorMutT.from_node (Node.leaf 0) : CursorMutT Nat Nat).descend_by_ext
        (fun _ _ _ _ => false) false).1 ∧
     Inv ((CursorMutT.from_node (Node.leaf 0) : CursorMutT Nat Nat).insert 4 2 3) ∧
     Inv ((CursorMutT.from_node (Node.leaf 0) : CursorMutT Nat Nat).insert_after 4 2 3) ∧
     Inv ((CursorMutT.from_node (Node.leaf 0) : CursorMutT Nat Nat).insert_raw 4 2
        (Node.leaf 2) true) ∧
     Inv (CursorMutT.from_iter 4 2 [4] : CursorMutT Nat Nat)) :=
  ⟨⟨inv_of_some rfl, fun s hs => absurd hs (by simp [CursorMutT.from_node])⟩,
   c4_invariant_preservation 4 2 0 (CursorMutT.from_node (Node.leaf 0)) (Node.leaf 1)
     (Node.leaf 2) 3 [4] (fun _ _ _ => false) (fun _ _ _ _ => false) false true
     (inv_of_some rfl) (fun s hs => absurd hs (by simp [CursorMutT.from_node]))⟩

/-- Claim C6: descent that finds no match (predicate false on every child, held
node a leaf, or empty cursor) and ascent attempted past the root both return an
absent value and leave the entire cursor state unchanged. -/
theorem c6_absent_results [Info α] [Inhabited α] [Leaf L α] [PathInfo I α] :
    (∀ (c : CursorMutT L I) (f : I → α → Nat → Nat → Bool) (reversed : Bool),
      c.cur_node = none → c.descend_by_ext f reversed = (c, none)) ∧
    (∀ (c : CursorMutT L I) (f : I → α → Nat → Nat → Bool) (reversed : Bool) (l : L),
      c.cur_node = some (Node.leaf l) → c.descend_by_ext f reversed = (c, none)) ∧
    (∀ (c : CursorMutT L I) (f : I → α → Nat → Nat → Bool) (reversed : Bool),
      (∀ e a i j, f e a i j = false) → c.descend_by_ext f reversed = (c, none)) ∧
    (∀ c : CursorMutT L I, c.steps = [] → c.ascend = (c, none)) := by
  refine ⟨descend_by_ext_empty, descend_by_ext_leaf, descend_by_ext_no_match, ?_⟩
  intro c hs
  rcases ascend_eq c with ⟨_, he⟩ | ⟨cur, _, _, he⟩ | ⟨cur, cstep, rest, hc, hs2, he⟩
  · exact he
  · exact he
  · rw [hs] at hs2
    cases hs2

/-- Witness for C6: failed descents on an empty cursor, a leaf, and a
never-matching predicate, and an ascend at the root, all leave the cursor
unchanged. -/
theorem c6_absent_results_witness :
    ((CursorMutT.new : CursorMutT Nat Nat).cur_node = none ∧
     (CursorMutT.from_node (Node.leaf 3) : CursorMutT Nat Nat).cur_node =
        some (Node.leaf 3) ∧
     (∀ (e a i j : Nat), (fun (_ : Nat) (_ : Nat) (_ : Nat) (_ : Nat) => false) e a i j =
        false) ∧
     (CursorMutT.from_node (Node.leaf 4) : CursorMutT Nat Nat).steps = []) ∧
    ((CursorMutT.new : CursorMutT Nat Nat).descend_by_ext
        (fun _ _ i _ => i == 0) false = (CursorMutT.new, none) ∧
     (CursorMutT.from_node (Node.leaf 3) : CursorMutT Nat Nat).descend_by_ext
        (fun _ _ i _ => i == 0) false = (CursorMutT.from_node (Node.leaf 3), none) ∧
     (CursorMutT.from_node (Node.internal [Node.leaf 1, Node.leaf 2]) :
        CursorMutT Nat Nat).descend_by_ext (fun _ _ _ _ => false) false =
       (CursorMutT.from_node (Node.internal [Node.leaf 1, Node.leaf 2]), none) ∧
     (CursorMutT.from_node (Node.leaf 4) : CursorMutT Nat Nat).ascend =
       (CursorMutT.from_node (Node.leaf 4), none)) := by
  have h := @c6_absent_results Nat Nat Nat _ _ _ _
  exact ⟨⟨rfl, rfl, fun _ _ _ _ => rfl, rfl⟩,
    h.1 CursorMutT.new _ false rfl,
    h.2.1 (CursorMutT.from_node (Node.leaf 3)) _ false 3 rfl,
    h.2.2.1 (CursorMutT.from_node (Node.internal [Node.leaf 1, Node.leaf 2])) _ false
      (fun _ _ _ _ => rfl),
    h.2.2.2 (CursorMutT.from_node (Node.leaf 4)) rfl⟩

/-- Claim C10: `reset` terminates for every cursor state and the recursion of
`insert_raw` terminates: a successful `ascend` pops exactly one step, `reset`'s
ascend-loop completes within `steps.length` iterations, and `insert_raw`'s
recursion completes within `steps.length + 1` calls (and these fuel-bounded runs
compute exactly the functions themselves, which are total). -/
theorem c10_loop_bounds {L I : Type} (maxC minC : Nat) :
    (∀ (c c2 : CursorMutT L I) (n : Node L), c.ascend = (c2, some n) →
      c.steps.length = c2.steps.length + 1) ∧
    (∀ c : CursorMutT L I, resetFuel c.steps.length c = c.reset) ∧
    (∀ (steps : List (CursorMutStep L I)) (cur nn : Node L) (after : Bool),
      insertRawGoFuel maxC minC (steps.length + 1) steps cur nn after =
        some (insert_raw_go maxC minC steps cur nn after)) ∧
    (∀ (c : CursorMutT L I) (cur nn : Node L) (after : Bool), c.cur_node = some cur →
      insertRawGoFuel maxC minC (c.steps.length + 1) c.steps cur nn after =
        some (c.insert_raw maxC minC nn after)) := by
  refine ⟨ascend_pop, resetFuel_eq_reset, insertRawGoFuel_eq maxC minC, ?_⟩
  intro c cur nn after hc
  have hres : c.insert_raw maxC minC nn after = insert_raw_go maxC minC c.steps cur nn after := by
    unfold CursorMutT.insert_raw
    rw [hc]
  rw [hres]
  exact insertRawGoFuel_eq maxC minC c.steps cur nn after

/-- Witness for C10 on a one-step cursor. -/
theorem c10_loop_bounds_witness :
    ((⟨some (Node.leaf 1), [⟨[], 0, 0⟩]⟩ : CursorMutT Nat Nat).ascend =
        (⟨some (Node.from_nodes (nvecInsert 0 (Node.leaf 1) [])), []⟩,
         some (Node.from_nodes (nvecInsert 0 (Node.leaf 1) []))) ∧
     (⟨some (Node.leaf 1), [⟨[], 0, 0⟩]⟩ : CursorMutT Nat Nat).cur_node =
        some (Node.leaf 1)) ∧
    ((⟨some (Node.leaf 1), [⟨[], 0, 0⟩]⟩ : CursorMutT Nat Nat).steps.length =
        (⟨some (Node.from_nodes (nvecInsert 0 (Node.leaf 1) [])), []⟩ :
          CursorMutT Nat Nat).steps.length + 1 ∧
     resetFuel (⟨some (Node.leaf 1), [⟨[], 0, 0⟩]⟩ : CursorMutT Nat Nat).steps.length
        (⟨some (Node.leaf 1), [⟨[], 0, 0⟩]⟩ : CursorMutT Nat Nat) =
       (⟨some (Node.leaf 1), [⟨[], 0, 0⟩]⟩ : CursorMutT Nat Nat).reset ∧
     insertRawGoFuel 4 2
        ((⟨some (Node.leaf 1), [⟨[], 0, 0⟩]⟩ : CursorMutT Nat Nat).steps.length + 1)
        (⟨some (Node.leaf 1), [⟨[], 0, 0⟩]⟩ : CursorMutT Nat Nat).steps (Node.leaf 1)
        (Node.leaf 2) true =
       some ((⟨some (Node.leaf 1), [⟨[], 0, 0⟩]⟩ : CursorMutT Nat Nat).insert_raw 4 2
         (Node.leaf 2) true)) := by
  have h := @c10_loop_bounds Nat Nat 4 2
  exact ⟨⟨rfl, rfl⟩,
    h.1 ⟨some (Node.leaf 1), [⟨[], 0, 0⟩]⟩ _ _ rfl,
    h.2.1 ⟨some (Node.leaf 1), [⟨[], 0, 0⟩]⟩,
    h.2.2.2 ⟨some (Node.leaf 1), [⟨[], 0, 0⟩]⟩ (Node.leaf 1) (Node.leaf 2) true rfl⟩

end Unitree
